import Mathlib

/-!
Verification of the talk-to-me client core: a shallow embedding of the
transcript aggregation engine (segment stores, log/caption projectors,
per-participant index), the audio routing policy, and the session-state
reducer, together with theorems settling the specification claims.

JavaScript data structures are modelled as follows: a `Map` (and a plain
object used as a dictionary) is an insertion-ordered association list where
setting an existing key updates the value in place and setting a fresh key
appends; `Array.prototype.sort` with comparator `(a, b) => a.k - b.k` is the
stable ascending sort by `k`, i.e. `List.insertionSort` with the `≤` relation
on `k`; `arr.slice(-n)` is `lastN n`; `x ?? d` on a possibly-undefined number
is `Option.getD`; `a || b` on strings treats `""` and `undefined` as falsy.
-/

set_option maxRecDepth 20000

namespace TalkToMe

/-! ## Data model: transcription segments (livekit `TranscriptionSegment`
augmented with the optional fields read defensively by the client,
cf. `SegmentWithMeta` in transcript-log.tsx). -/

structure Segment where
  id : String
  text : String
  language : String
  final : Option Bool := none
  participantSid : Option String := none
  speakerSid : Option String := none
  participantObjSid : Option String := none
  firstReceivedTime : Option Nat := none
deriving DecidableEq, Repr

/-- JavaScript string truthiness of a possibly-undefined string:
`undefined` and `""` are falsy. -/
def truthy : Option String → Bool
  | none => false
  | some s => !(s == "")

/-- JavaScript `a || b` on possibly-undefined strings. -/
def jsOr (a b : Option String) : Option String :=
  if truthy a then a else b

/-- The chain `s.participantSid || s.speakerSid || s.participant?.sid`
(transcript-log.tsx, useTranscriptions.ts). -/
def resolvePsid (s : Segment) : Option String :=
  jsOr s.participantSid (jsOr s.speakerSid s.participantObjSid)

/-- Effective language of a segment: empty resolves to `"en"`
(`s.language && s.language !== "" ? s.language : "en"` and the
captions.tsx `if (language === "") language = "en"`). -/
def effLang (s : Segment) : String :=
  if s.language = "" then "en" else s.language

/-- The language-filter guard `if (language && lang !== language) continue`:
skip exactly when a filter is configured, truthy, and differs from the
segment's effective language. -/
def langSkip (filter : Option String) (lang : String) : Bool :=
  match filter with
  | none => false
  | some f => (!(f == "")) && (!(lang == f))

/-- Resolution `typeof s.final === "boolean" ? s.final : true` — absent finality is
treated as final (transcript-log.tsx). -/
def isFinalOf (s : Segment) : Bool :=
  match s.final with
  | some b => b
  | none => true

/-! ## Insertion-ordered association lists (JS `Map` / object semantics). -/

/-- JS `Map.get` / property read. -/
def lookupA {α : Type} : List (String × α) → String → Option α
  | [], _ => none
  | p :: rest, k => if p.1 = k then some p.2 else lookupA rest k

/-- JS `Map.set` / property write: update in place when the key exists,
append otherwise. -/
def upsertA {α : Type} (m : List (String × α)) (k : String) (v : α) : List (String × α) :=
  if (m.map Prod.fst).contains k then
    m.map (fun p => if p.1 = k then (k, v) else p)
  else m ++ [(k, v)]

/-! ## Transcript log store (transcript-log.tsx `handle`). -/

structure LogItem where
  id : String
  text : String
  language : String
  participantSid : Option String
  time : Nat
deriving DecidableEq, Repr

/-- Comparator of the log sort: `(a, b) => a.time - b.time` ascending. -/
def timeLE (a b : LogItem) : Prop := a.time ≤ b.time

instance : DecidableRel timeLE := fun a b => Nat.decLe a.time b.time

instance : IsTotal LogItem timeLE := ⟨fun a b => Nat.le_total a.time b.time⟩

instance : IsTrans LogItem timeLE := ⟨fun _ _ _ => Nat.le_trans⟩

/-- JS `arr.slice(-k)`: the last `k` elements (whole list when shorter). -/
def lastN {α : Type} (k : Nat) (l : List α) : List α :=
  l.drop (l.length - k)

/-- The loop body of transcript-log.tsx `handle`: language filter, finality
filter, then upsert of the rebuilt `LogItem`, keeping the existing entry's
`time` when the id is already present. `now` is `Date.now()`. -/
def logStep (filter : Option String) (now : Nat)
    (byId : List (String × LogItem)) (s : Segment) : List (String × LogItem) :=
  let lang := effLang s
  if langSkip filter lang then byId
  else if !(isFinalOf s) then byId
  else
    let psid := resolvePsid s
    let time := s.firstReceivedTime.getD now
    let timeVal := match lookupA byId s.id with
      | some existing => existing.time
      | none => time
    upsertA byId s.id ⟨s.id, s.text, lang, psid, timeVal⟩

/-- JS `new Map(prev.map((it) => [it.id, it]))`. -/
def toMapById (prev : List LogItem) : List (String × LogItem) :=
  prev.foldl (fun m it => upsertA m it.id it) []

/-- The transcript-log.tsx `handle`: merge the batch into the id-keyed map, then
sort by `time` ascending (stable) and keep the last 100. -/
def handleLog (filter : Option String) (now : Nat)
    (prev : List LogItem) (segments : List Segment) : List LogItem :=
  lastN 100
    (((segments.foldl (logStep filter now) (toMapById prev)).map Prod.snd).insertionSort timeLE)

/-! ## Captions store (captions.tsx `updateTranscriptions`). -/

/-- Mapping `language → (id → segment)`, both levels insertion-ordered. -/
abbrev TransStore := List (String × List (String × Segment))

/-- One iteration of the captions.tsx ingest loop: resolve the language,
create the language group if missing, then write the segment under its id.
No finality check is performed. -/
def capStep (acc : TransStore) (s : Segment) : TransStore :=
  upsertA acc (effLang s) (upsertA ((lookupA acc (effLang s)).getD []) s.id s)

/-- The captions.tsx `updateTranscriptions`. -/
def updateTranscriptions (prev : TransStore) (segments : List Segment) : TransStore :=
  segments.foldl capStep prev

/-- Both-level lookup of a segment slot. -/
def lookup2 (store : TransStore) (lang id : String) : Option Segment :=
  (lookupA store lang).bind (fun b => lookupA b id)

/-- Sort key of the caption render: `a.firstReceivedTime - b.firstReceivedTime`.
livekit's `TranscriptionSegment` always carries `firstReceivedTime`; the
default only pads the optional field of the shared segment record. -/
def ftKey (s : Segment) : Nat := s.firstReceivedTime.getD 0

def ftLE (a b : Segment) : Prop := ftKey a ≤ ftKey b

instance : DecidableRel ftLE := fun a b => Nat.decLe (ftKey a) (ftKey b)

instance : IsTotal Segment ftLE := ⟨fun a b => Nat.le_total (ftKey a) (ftKey b)⟩

instance : IsTrans Segment ftLE := ⟨fun _ _ _ => Nat.le_trans⟩

/-- The captions.tsx multi-user render: the `captionsLanguage` bucket's values,
sorted ascending by `firstReceivedTime`, last 2 kept; the boolean is full
emphasis, `false` exactly for `i === 0 && arr.length > 1` (`opacity-50`). -/
def captionsMulti (store : TransStore) (captionsLanguage : String) : List (Segment × Bool) :=
  (lastN 2 ((((lookupA store captionsLanguage).getD []).map Prod.snd).insertionSort
    ftLE)).enum.map
    (fun p => (p.2, !(p.1 == 0 && decide (1 < (lastN 2 ((((lookupA store
      captionsLanguage).getD []).map Prod.snd).insertionSort ftLE)).length))))

/-! ## Transcript-log single-mode pairing (transcript-log.tsx `content`). -/

/-- The `reduce` grouping items by language in item order. -/
def buildByLang (items : List LogItem) : List (String × List LogItem) :=
  items.foldl
    (fun acc item => upsertA acc item.language ((lookupA acc item.language).getD [] ++ [item])) []

/-- Single-mode `content`: positional pairing of the input-language and
output-language buffers, `maxLen` entries. -/
def contentSingle (items : List LogItem) (inputLanguage outputLanguage : String) :
    List (Option LogItem × Option LogItem) :=
  (List.range (max ((lookupA (buildByLang items) inputLanguage).getD []).length
      ((lookupA (buildByLang items) outputLanguage).getD []).length)).map
    (fun i => (((lookupA (buildByLang items) inputLanguage).getD [])[i]?,
      ((lookupA (buildByLang items) outputLanguage).getD [])[i]?))

/-! ## Per-participant transcript index (useTranscriptions.ts `handle`). -/

/-- The ingest loop of `useTranscriptionsByParticipant`: language filter,
then overwrite `participantSid → text` when the resolved sid is truthy;
segments without a truthy sid are skipped. No finality check is performed. -/
def handleByParticipant (language : Option String)
    (prev : List (String × String)) (segments : List Segment) : List (String × String) :=
  segments.foldl
    (fun updated s =>
      if langSkip language (effLang s) then updated
      else
        match resolvePsid s with
        | some p => if p = "" then updated else upsertA updated p s.text
        | none => updated)
    prev

/-! ## Audio routing policy (party.tsx). -/

structure MediaElement where
  muted : Bool
deriving DecidableEq, Repr

structure RemoteAudioTrack where
  volume : Nat
  attachedElements : List MediaElement
deriving DecidableEq, Repr

structure RemoteTrackPublication where
  trackName : String
  audioTrack : Option RemoteAudioTrack
deriving DecidableEq, Repr

structure RemoteParticipant where
  identity : String
  audioTrackPublications : List RemoteTrackPublication
deriving DecidableEq, Repr

structure Participant where
  identity : String
  canPublish : Bool
deriving DecidableEq, Repr

/-- Host resolution: `participants.find((p) => p.permissions?.canPublish)`. -/
def findHost (participants : List Participant) : Option Participant :=
  participants.find? (fun p => p.canPublish)

/-- Application `setRemoteTrackMuted`: `setVolume(muted ? 0 : 1)` and propagate the flag
to every attached element. -/
def setRemoteTrackMuted (t : RemoteAudioTrack) (muted : Bool) : RemoteAudioTrack :=
  { volume := if muted then 0 else 1,
    attachedElements := t.attachedElements.map (fun e => { e with muted := muted }) }

/-- One routing decision: which source, the verdict, and the resulting
track state after application. -/
structure TrackDecision where
  participantIdentity : String
  trackName : String
  muted : Bool
  updatedTrack : RemoteAudioTrack
deriving DecidableEq, Repr

/-- The party.tsx `handleTrackMuting`: for every remote audio publication with an
attached track, host mutes everything; a listener unmutes exactly the
`"agent"` participant's tracks and mutes the rest. Publications without a
track are deferred (no decision). -/
def handleTrackMuting (isHost : Bool) (remoteParticipants : List RemoteParticipant) :
    List TrackDecision :=
  remoteParticipants.flatMap (fun participant =>
    participant.audioTrackPublications.filterMap (fun publication =>
      match publication.audioTrack with
      | none => none
      | some audioTrack =>
        let muted := if isHost then true
          else if participant.identity = "agent" then false else true
        some ⟨participant.identity, publication.trackName, muted,
          setRemoteTrackMuted audioTrack muted⟩))

/-! ## Session state (usePartyState.ts). -/

inductive Mode where
  | single
  | multi
deriving DecidableEq, Repr

inductive Speaker where
  | user1
  | user2
deriving DecidableEq, Repr

structure State where
  token : Option String
  serverUrl : String
  shouldConnect : Bool
  captionsEnabled : Bool
  captionsLanguage : String
  isHost : Bool
  mode : Mode
  currentSpeaker : Speaker
  inputLanguage : String
  outputLanguage : String
deriving DecidableEq, Repr

/-- The closed set of recognized session actions (the TS `Action` union). -/
inductive Action where
  | SET_TOKEN (payload : String)
  | SET_SERVER_URL (payload : String)
  | SET_SHOULD_CONNECT (payload : Bool)
  | SET_CAPTIONS_ENABLED (payload : Bool)
  | SET_CAPTIONS_LANGUAGE (payload : String)
  | SET_IS_HOST (payload : Bool)
  | SET_MODE (payload : Mode)
  | SET_CURRENT_SPEAKER (payload : Speaker)
  | SET_INPUT_LANGUAGE (payload : String)
  | SET_OUTPUT_LANGUAGE (payload : String)
  | FLIP_LANGUAGES
deriving DecidableEq, Repr

/-- What the reducer is actually handed at runtime: either one of the
recognized variants or an action whose `type` tag is none of the recognized
strings (the `default` case of the switch). -/
inductive DispatchedAction where
  | known (a : Action)
  | unknown (tag : String)
deriving DecidableEq, Repr

/-- The usePartyState.ts `reducer`: a switch over the action tag; every
recognized case returns an updated state, the default case throws
`Unknown action`. -/
def reducer (state : State) (action : DispatchedAction) : Except String State :=
  match action with
  | .known (.SET_TOKEN payload) => .ok { state with token := some payload }
  | .known (.SET_SERVER_URL payload) => .ok { state with serverUrl := payload }
  | .known (.SET_SHOULD_CONNECT payload) => .ok { state with shouldConnect := payload }
  | .known (.SET_CAPTIONS_ENABLED payload) => .ok { state with captionsEnabled := payload }
  | .known (.SET_CAPTIONS_LANGUAGE payload) => .ok { state with captionsLanguage := payload }
  | .known (.SET_IS_HOST payload) => .ok { state with isHost := payload }
  | .known (.SET_MODE payload) => .ok { state with mode := payload }
  | .known (.SET_CURRENT_SPEAKER payload) => .ok { state with currentSpeaker := payload }
  | .known (.SET_INPUT_LANGUAGE payload) => .ok { state with inputLanguage := payload }
  | .known (.SET_OUTPUT_LANGUAGE payload) => .ok { state with outputLanguage := payload }
  | .known .FLIP_LANGUAGES =>
      .ok { state with
        inputLanguage := state.outputLanguage,
        outputLanguage := state.inputLanguage,
        currentSpeaker := if state.currentSpeaker = .user1 then .user2 else .user1 }
  | .unknown tag => .error ("Unknown action: " ++ tag)

/-! ## Derived definitions used by the theorems. -/

/-- Strict version of the log-sort comparator. -/
def timeLT (a b : LogItem) : Prop := a.time < b.time

instance : IsAntisymm LogItem timeLT :=
  ⟨fun a b h1 h2 => absurd (Nat.lt_trans h1 h2) (Nat.lt_irrefl _)⟩

instance : IsTrans LogItem timeLT := ⟨fun _ _ _ => Nat.lt_trans⟩

/-- A segment survives the transcript-log language filter and finality
filter (the two `continue` guards of `handle`). -/
def segPasses (filter : Option String) (s : Segment) : Bool :=
  !(langSkip filter (effLang s)) && isFinalOf s

/-- The sub-batch actually merged by the transcript-log `handle`. -/
def effBatch (filter : Option String) (batch : List Segment) : List Segment :=
  batch.filter (segPasses filter)

/-- The `LogItem` built for a segment first accepted at wall-clock `now`. -/
def itemAt (now : Nat) (s : Segment) : LogItem :=
  ⟨s.id, s.text, effLang s, resolvePsid s, s.firstReceivedTime.getD now⟩

/-- Well-formedness of a captions store: no duplicate keys at either level
(JS objects cannot hold duplicate keys). -/
def storeWF (store : TransStore) : Prop :=
  (store.map Prod.fst).Nodup ∧ ∀ p ∈ store, (p.2.map Prod.fst).Nodup

/-- Folding the transcript-log handler over a sequence of
`(wall-clock, batch)` deliveries, starting from the empty store. -/
def ingestBatches (filter : Option String) (batches : List (Nat × List Segment)) : List LogItem :=
  batches.foldl (fun st nb => handleLog filter nb.1 st nb.2) []

/-! ## Concrete data for witnesses and counterexamples. -/

/-- A distinct final segment with id `toString i` and arrival time `i`. -/
def mkSeg (i : Nat) : Segment :=
  ⟨toString i, "text", "en", none, none, none, none, some i⟩

def c4BatchA : List Segment := (List.range 50).map mkSeg

def c4BatchB : List Segment := (List.range 51).map (fun i => mkSeg (50 + i))

/-- Two deliveries totalling 101 distinct final segments. -/
def c4Batches : List (Nat × List Segment) := [(0, c4BatchA), (7, c4BatchB)]

def c4All : List Segment := (c4Batches.map Prod.snd).flatten

def c9Seg (i : Nat) : Segment :=
  ⟨toString i, "text", "en", none, none, none, none, some (i + 2)⟩

/-- 101 distinct final segments in which the first two tie at time 1:
ingesting this batch once trims the first tie-mate, ingesting it again
re-appends it behind the survivor, and the stable sort then trims the
other tie-mate instead. -/
def c9Batch : List Segment :=
  ⟨"a", "ta", "en", none, none, none, none, some 1⟩ ::
  ⟨"b", "tb", "en", none, none, none, none, some 1⟩ ::
  (List.range 99).map c9Seg

/-! # Theorems -/

/-! ## Association-list lemmas. -/

theorem lookupA_nil {α : Type} (k : String) : lookupA ([] : List (String × α)) k = none := rfl

theorem lookupA_cons {α : Type} (p : String × α) (rest : List (String × α)) (k : String) :
    lookupA (p :: rest) k = if p.1 = k then some p.2 else lookupA rest k := rfl

theorem lookupA_eq_none_iff {α : Type} (m : List (String × α)) (k : String) :
    lookupA m k = none ↔ k ∉ m.map Prod.fst := by
  induction m with
  | nil => simp [lookupA_nil]
  | cons p rest ih =>
    by_cases h : p.1 = k
    · simp [lookupA_cons, h]
    · rw [lookupA_cons, if_neg h, List.map_cons, List.mem_cons, ih]
      constructor
      · rintro hn (hc | hc)
        · exact h hc.symm
        · exact hn hc
      · exact fun hn hc => hn (Or.inr hc)

theorem lookupA_isSome_iff {α : Type} (m : List (String × α)) (k : String) :
    (lookupA m k).isSome ↔ k ∈ m.map Prod.fst := by
  rw [Option.isSome_iff_ne_none, ne_eq, lookupA_eq_none_iff, not_not]

theorem lookupA_mem {α : Type} {m : List (String × α)} {k : String} {v : α}
    (h : lookupA m k = some v) : (k, v) ∈ m := by
  induction m with
  | nil => simp [lookupA_nil] at h
  | cons p rest ih =>
    by_cases hk : p.1 = k
    · rw [lookupA_cons, if_pos hk] at h
      have : p = (k, v) := by
        cases p
        cases h
        simp_all
      exact this ▸ List.mem_cons_self _ _
    · rw [lookupA_cons, if_neg hk] at h
      exact List.mem_cons_of_mem _ (ih h)

theorem upsertA_of_mem {α : Type} {m : List (String × α)} {k : String} (v : α)
    (h : k ∈ m.map Prod.fst) :
    upsertA m k v = m.map (fun p => if p.1 = k then (k, v) else p) := by
  have hc : (m.map Prod.fst).contains k = true := List.elem_iff.mpr h
  unfold upsertA
  rw [hc]
  rfl

theorem upsertA_of_not_mem {α : Type} {m : List (String × α)} {k : String} (v : α)
    (h : k ∉ m.map Prod.fst) : upsertA m k v = m ++ [(k, v)] := by
  have hc : (m.map Prod.fst).contains k = false := by
    cases hcc : (m.map Prod.fst).contains k
    · rfl
    · exact absurd (List.elem_iff.mp hcc) h
  unfold upsertA
  rw [hc]
  rfl

theorem map_fst_upsertA {α : Type} (m : List (String × α)) (k : String) (v : α) :
    (upsertA m k v).map Prod.fst =
      if k ∈ m.map Prod.fst then m.map Prod.fst else m.map Prod.fst ++ [k] := by
  by_cases h : k ∈ m.map Prod.fst
  · rw [upsertA_of_mem v h, if_pos h, List.map_map]
    apply List.map_congr_left
    intro p _
    by_cases hp : p.1 = k
    · simp [hp]
    · simp [hp]
  · rw [upsertA_of_not_mem v h, if_neg h]
    simp

theorem nodup_map_fst_upsertA {α : Type} {m : List (String × α)} {k : String} {v : α}
    (h : (m.map Prod.fst).Nodup) : ((upsertA m k v).map Prod.fst).Nodup := by
  rw [map_fst_upsertA]
  by_cases hk : k ∈ m.map Prod.fst
  · simpa [hk] using h
  · rw [if_neg hk]
    refine List.Nodup.append h (List.nodup_singleton k) ?_
    intro a ha hb
    rw [List.mem_singleton] at hb
    exact hk (hb ▸ ha)

theorem lookupA_append_of_none {α : Type} {m₁ : List (String × α)} (m₂ : List (String × α))
    {k : String} (h : lookupA m₁ k = none) : lookupA (m₁ ++ m₂) k = lookupA m₂ k := by
  induction m₁ with
  | nil => rfl
  | cons p rest ih =>
    rw [lookupA_cons] at h
    by_cases hp : p.1 = k
    · rw [if_pos hp] at h
      exact absurd h (by simp)
    · rw [if_neg hp] at h
      rw [List.cons_append, lookupA_cons, if_neg hp, ih h]

theorem lookupA_append_of_some {α : Type} {m₁ : List (String × α)} (m₂ : List (String × α))
    {k : String} {v : α} (h : lookupA m₁ k = some v) : lookupA (m₁ ++ m₂) k = some v := by
  induction m₁ with
  | nil => simp [lookupA_nil] at h
  | cons p rest ih =>
    rw [lookupA_cons] at h
    by_cases hp : p.1 = k
    · rw [if_pos hp] at h
      rw [List.cons_append, lookupA_cons, if_pos hp, h]
    · rw [if_neg hp] at h
      rw [List.cons_append, lookupA_cons, if_neg hp, ih h]

theorem lookupA_map_ite_self {α : Type} (m : List (String × α)) (k : String) (v : α) :
    lookupA (m.map (fun p => if p.1 = k then (k, v) else p)) k =
      if k ∈ m.map Prod.fst then some v else none := by
  induction m with
  | nil => simp [lookupA_nil]
  | cons p rest ih =>
    by_cases h : p.1 = k
    · simp [lookupA_cons, h]
    · have h2 : ¬ k = p.1 := fun hh => h hh.symm
      simp only [List.map_cons, if_neg h, lookupA_cons, List.mem_cons]
      rw [ih]
      by_cases hk : k ∈ rest.map Prod.fst
      · simp [hk, h2]
      · simp [hk, h2]

theorem lookupA_map_ite_ne {α : Type} (m : List (String × α)) (k k' : String) (v : α)
    (h : k' ≠ k) :
    lookupA (m.map (fun p => if p.1 = k then (k, v) else p)) k' = lookupA m k' := by
  induction m with
  | nil => simp [lookupA_nil]
  | cons p rest ih =>
    by_cases hp : p.1 = k
    · have : ¬ k = k' := fun hh => h hh.symm
      simp only [List.map_cons, if_pos hp, lookupA_cons, this, if_false]
      rw [ih, if_neg (hp ▸ this : ¬ p.1 = k')]
    · simp only [List.map_cons, if_neg hp, lookupA_cons]
      by_cases hp' : p.1 = k'
      · simp [hp']
      · rw [if_neg hp', if_neg hp', ih]

theorem lookupA_upsertA_self {α : Type} (m : List (String × α)) (k : String) (v : α) :
    lookupA (upsertA m k v) k = some v := by
  by_cases h : k ∈ m.map Prod.fst
  · rw [upsertA_of_mem v h, lookupA_map_ite_self, if_pos h]
  · rw [upsertA_of_not_mem v h,
      lookupA_append_of_none [(k, v)] ((lookupA_eq_none_iff m k).mpr h)]
    rw [lookupA_cons, if_pos rfl]

theorem lookupA_upsertA_ne {α : Type} (m : List (String × α)) (k k' : String) (v : α)
    (h : k' ≠ k) : lookupA (upsertA m k v) k' = lookupA m k' := by
  by_cases hm : k ∈ m.map Prod.fst
  · rw [upsertA_of_mem v hm, lookupA_map_ite_ne m k k' v h]
  · rw [upsertA_of_not_mem v hm]
    cases hl : lookupA m k' with
    | some w => rw [lookupA_append_of_some [(k, v)] hl]
    | none =>
      rw [lookupA_append_of_none [(k, v)] hl, lookupA_cons,
        if_neg (fun hh => h hh.symm)]
      rw [lookupA_nil]

theorem upsertA_eq_self {α : Type} {m : List (String × α)} {k : String} {v : α}
    (hn : (m.map Prod.fst).Nodup) (h : lookupA m k = some v) : upsertA m k v = m := by
  have hm : k ∈ m.map Prod.fst := by
    rw [← lookupA_isSome_iff, h]
    rfl
  rw [upsertA_of_mem v hm]
  induction m with
  | nil => simp at hm
  | cons p rest ih =>
    by_cases hp : p.1 = k
    · have hrest : k ∉ rest.map Prod.fst := by
        rw [← hp]
        exact (List.nodup_cons.mp (by simpa using hn)).1
      have hv : p = (k, v) := by
        rw [lookupA_cons, if_pos hp] at h
        cases p
        cases h
        simp_all
      have htl : rest.map (fun q => if q.1 = k then (k, v) else q) = rest := by
        calc rest.map (fun q => if q.1 = k then (k, v) else q)
            = rest.map id := by
              apply List.map_congr_left
              intro q hq
              have : ¬ q.1 = k := fun hqk => hrest (hqk ▸ List.mem_map_of_mem Prod.fst hq)
              simp [this]
          _ = rest := List.map_id rest
      rw [List.map_cons, if_pos hp, htl, hv]
    · have hrest : k ∈ rest.map Prod.fst := by
        rcases List.mem_cons.mp hm with h' | h'
        · exact absurd h'.symm hp
        · exact h'
      have hn' : (rest.map Prod.fst).Nodup := (List.nodup_cons.mp (by simpa using hn)).2
      have h' : lookupA rest k = some v := by rwa [lookupA_cons, if_neg hp] at h
      rw [List.map_cons, if_neg hp, ih hn' h' hrest]

theorem lookupA_ext {α : Type} :
    ∀ (m₁ m₂ : List (String × α)),
      m₁.map Prod.fst = m₂.map Prod.fst → (m₁.map Prod.fst).Nodup →
      (∀ k, lookupA m₁ k = lookupA m₂ k) → m₁ = m₂ := by
  intro m₁
  induction m₁ with
  | nil =>
    intro m₂ hk _ _
    cases m₂ with
    | nil => rfl
    | cons q m₂ => simp at hk
  | cons p m₁ ih =>
    intro m₂ hk hn hl
    cases m₂ with
    | nil => simp at hk
    | cons q m₂ =>
      simp only [List.map_cons, List.cons.injEq] at hk
      obtain ⟨hfst, htail⟩ := hk
      have hval : p.2 = q.2 := by
        have := hl p.1
        rw [lookupA_cons, lookupA_cons, if_pos rfl, if_pos hfst.symm] at this
        exact Option.some.inj this
      have hne : p.1 ∉ m₁.map Prod.fst := (List.nodup_cons.mp (by simpa using hn)).1
      have htl : ∀ k, lookupA m₁ k = lookupA m₂ k := by
        intro k
        by_cases hkk : k = p.1
        · subst hkk
          rw [(lookupA_eq_none_iff m₁ p.1).mpr hne,
            (lookupA_eq_none_iff m₂ p.1).mpr (htail ▸ hne)]
        · have := hl k
          rw [lookupA_cons, lookupA_cons, if_neg (fun hh => hkk hh.symm),
            if_neg (hfst ▸ fun hh => hkk hh.symm)] at this
          exact this
      have htails := ih m₂ htail (List.nodup_cons.mp (by simpa using hn)).2 htl
      have hhead : p = q := by
        cases p; cases q
        simp_all
      rw [hhead, htails]

/-! ## `lastN` lemmas. -/

theorem lastN_of_length_le {α : Type} {k : Nat} {l : List α} (h : l.length ≤ k) :
    lastN k l = l := by
  unfold lastN
  rw [Nat.sub_eq_zero_of_le h]
  exact List.drop_zero l

theorem length_lastN {α : Type} (k : Nat) (l : List α) :
    (lastN k l).length = min k l.length := by
  unfold lastN
  rw [List.length_drop]
  omega

theorem lastN_suffix {α : Type} (k : Nat) (l : List α) : lastN k l <:+ l :=
  List.drop_suffix _ l

theorem lastN_append_right {α : Type} {k : Nat} (xs : List α) {ys : List α}
    (h : k ≤ ys.length) : lastN k (xs ++ ys) = lastN k ys := by
  unfold lastN
  rw [List.length_append, List.drop_append_eq_append_drop]
  have h1 : xs.length ≤ xs.length + ys.length - k := by omega
  rw [List.drop_eq_nil_iff.mpr h1, List.nil_append]
  congr 1
  omega

theorem take_append_lastN {α : Type} (k : Nat) (l : List α) :
    l.take (l.length - k) ++ lastN k l = l :=
  List.take_append_drop _ l

/-! ## Sorting lemmas for the log order. -/

theorem pairwise_lt_of_sorted_nodup {l : List LogItem}
    (hs : l.Sorted timeLE) (hn : (l.map LogItem.time).Nodup) : l.Pairwise timeLT := by
  have hne : l.Pairwise (fun a b => a.time ≠ b.time) := List.pairwise_map.mp hn
  exact (hs.and hne).imp (fun h => Nat.lt_of_le_of_ne h.1 h.2)

theorem nodup_times_of_perm {l₁ l₂ : List LogItem} (h : l₁.Perm l₂)
    (hn : (l₁.map LogItem.time).Nodup) : (l₂.map LogItem.time).Nodup :=
  ((h.map LogItem.time).nodup_iff).mp hn

theorem insertionSort_perm_invariant {A B : List LogItem} (hperm : A.Perm B)
    (hn : (A.map LogItem.time).Nodup) :
    A.insertionSort timeLE = B.insertionSort timeLE := by
  have p : (A.insertionSort timeLE).Perm (B.insertionSort timeLE) :=
    (List.perm_insertionSort timeLE A).trans
      (hperm.trans (List.perm_insertionSort timeLE B).symm)
  have hn1 : ((A.insertionSort timeLE).map LogItem.time).Nodup :=
    nodup_times_of_perm (List.perm_insertionSort timeLE A).symm hn
  have hn2 : ((B.insertionSort timeLE).map LogItem.time).Nodup :=
    nodup_times_of_perm p hn1
  exact List.eq_of_perm_of_sorted p
    (pairwise_lt_of_sorted_nodup (List.sorted_insertionSort timeLE A) hn1)
    (pairwise_lt_of_sorted_nodup (List.sorted_insertionSort timeLE B) hn2)

theorem lastN_orderedInsert_absorbed {x : LogItem} {S : List LogItem} {k : Nat}
    (hc : k ≤ S.countP (fun y => decide (x.time < y.time))) :
    lastN k (S.orderedInsert timeLE x) = lastN k S := by
  have key : ∀ T1 T2 : List LogItem, T1 ++ T2 = S →
      (∀ b ∈ T1, ¬ timeLE x b) → lastN k (T1 ++ x :: T2) = lastN k S := by
    intro T1 T2 hS hT1
    have h0 : T1.countP (fun y => decide (x.time < y.time)) = 0 := by
      rw [List.countP_eq_zero]
      intro a ha
      have := hT1 a ha
      simp only [timeLE] at this
      simp only [decide_eq_true_eq]
      omega
    have hcS : S.countP (fun y => decide (x.time < y.time)) ≤ T2.length := by
      rw [← hS, List.countP_append, h0, Nat.zero_add]
      exact List.countP_le_length _
    have hk2 : k ≤ T2.length := le_trans hc hcS
    rw [show T1 ++ x :: T2 = (T1 ++ [x]) ++ T2 by simp, lastN_append_right _ hk2,
      ← hS, lastN_append_right _ hk2]
  rw [List.orderedInsert_eq_take_drop]
  apply key _ _ (List.takeWhile_append_dropWhile _ S)
  intro b hb
  have := List.mem_takeWhile_imp hb
  exact of_decide_eq_true this

theorem foldr_orderedInsert_perm (F : List LogItem) (S : List LogItem) :
    (F.foldr (fun a acc => List.orderedInsert timeLE a acc) S).Perm (F ++ S) := by
  induction F with
  | nil => exact List.Perm.refl S
  | cons f F ih =>
    have h1 : ((f :: F).foldr (fun a acc => List.orderedInsert timeLE a acc) S).Perm
        (f :: F.foldr (fun a acc => List.orderedInsert timeLE a acc) S) :=
      List.perm_orderedInsert _ _ _
    exact h1.trans (ih.cons f)

theorem sorted_foldr_orderedInsert {F : List LogItem} {S : List LogItem}
    (hs : S.Sorted timeLE) :
    (F.foldr (fun a acc => List.orderedInsert timeLE a acc) S).Sorted timeLE := by
  induction F with
  | nil => exact hs
  | cons f F ih => exact List.Sorted.orderedInsert f _ ih

theorem lastN_foldr_orderedInsert_absorbed {F : List LogItem} {S : List LogItem} {k : Nat}
    (hcount : ∀ f ∈ F, k ≤ S.countP (fun y => decide (f.time < y.time))) :
    lastN k (F.foldr (fun a acc => List.orderedInsert timeLE a acc) S) = lastN k S := by
  induction F with
  | nil => rfl
  | cons f F ih =>
    have hrec := ih (fun g hg => hcount g (List.mem_cons_of_mem f hg))
    have hcnt : k ≤ (F.foldr (fun a acc => List.orderedInsert timeLE a acc) S).countP
        (fun y => decide (f.time < y.time)) := by
      rw [(foldr_orderedInsert_perm F S).countP_eq, List.countP_append]
      exact le_trans (hcount f (List.mem_cons_self f F)) (Nat.le_add_left _ _)
    calc lastN k ((F.foldr (fun a acc => List.orderedInsert timeLE a acc) S).orderedInsert timeLE f)
        = lastN k (F.foldr (fun a acc => List.orderedInsert timeLE a acc) S) :=
          lastN_orderedInsert_absorbed hcnt
      _ = lastN k S := hrec

theorem insertionSort_append_foldr (F X : List LogItem) :
    (F ++ X).insertionSort timeLE =
      F.foldr (fun a acc => List.orderedInsert timeLE a acc) (X.insertionSort timeLE) := by
  induction F with
  | nil => rfl
  | cons f F ih => simp [List.insertionSort, ih]

/-- Top-k absorption: trimming to the last `k` before merging more items does
not change the final trimmed sorted result, provided all times are distinct. -/
theorem lastN_sort_absorb (k : Nat) (A M : List LogItem)
    (hn : ((A ++ M).map LogItem.time).Nodup) :
    lastN k ((lastN k (A.insertionSort timeLE) ++ M).insertionSort timeLE)
      = lastN k ((A ++ M).insertionSort timeLE) := by
  have hpermA : A.Perm (A.insertionSort timeLE) := (List.perm_insertionSort timeLE A).symm
  have hFT : (A.insertionSort timeLE).take ((A.insertionSort timeLE).length - k)
      ++ lastN k (A.insertionSort timeLE) = A.insertionSort timeLE :=
    take_append_lastN k (A.insertionSort timeLE)
  have hperm : (A ++ M).Perm
      ((A.insertionSort timeLE).take ((A.insertionSort timeLE).length - k)
        ++ (lastN k (A.insertionSort timeLE) ++ M)) := by
    rw [← List.append_assoc, hFT]
    exact hpermA.append_right M
  have hsorteq : (A ++ M).insertionSort timeLE =
      ((A.insertionSort timeLE).take ((A.insertionSort timeLE).length - k)
        ++ (lastN k (A.insertionSort timeLE) ++ M)).insertionSort timeLE :=
    insertionSort_perm_invariant hperm hn
  have hnA : (A.map LogItem.time).Nodup := by
    rw [List.map_append] at hn
    exact (List.nodup_append.mp hn).1
  have hnS : ((A.insertionSort timeLE).map LogItem.time).Nodup :=
    nodup_times_of_perm hpermA hnA
  have hpairS : (A.insertionSort timeLE).Pairwise timeLT :=
    pairwise_lt_of_sorted_nodup (List.sorted_insertionSort timeLE A) hnS
  have hcount : ∀ f ∈ (A.insertionSort timeLE).take ((A.insertionSort timeLE).length - k),
      k ≤ ((lastN k (A.insertionSort timeLE) ++ M).insertionSort timeLE).countP
        (fun y => decide (f.time < y.time)) := by
    intro f hf
    have hlen : k < (A.insertionSort timeLE).length := by
      by_contra hle
      rw [Nat.not_lt] at hle
      rw [Nat.sub_eq_zero_of_le hle, List.take_zero] at hf
      exact absurd hf (List.not_mem_nil f)
    have hTlen : (lastN k (A.insertionSort timeLE)).length = k := by
      rw [length_lastN]
      omega
    have hltFT : ∀ t ∈ lastN k (A.insertionSort timeLE), timeLT f t := by
      have := hFT ▸ hpairS
      exact fun t ht => (List.pairwise_append.mp this).2.2 f hf t ht
    have hcT : (lastN k (A.insertionSort timeLE)).countP
        (fun y => decide (f.time < y.time)) = k := by
      rw [List.countP_eq_length.mpr
        (fun t ht => decide_eq_true (show f.time < t.time from hltFT t ht)), hTlen]
    rw [(List.perm_insertionSort timeLE _).countP_eq, List.countP_append, hcT]
    exact Nat.le_add_right k _
  rw [hsorteq, insertionSort_append_foldr
    ((A.insertionSort timeLE).take ((A.insertionSort timeLE).length - k))
    (lastN k (A.insertionSort timeLE) ++ M)]
  exact (lastN_foldr_orderedInsert_absorbed hcount).symm

/-! ## Normal form of the transcript-log handler on fresh ids. -/

theorem foldl_upsert_pairs :
    ∀ (prev : List LogItem) (acc : List (String × LogItem)),
      (∀ it ∈ prev, it.id ∉ acc.map Prod.fst) →
      (prev.map LogItem.id).Nodup →
      prev.foldl (fun m it => upsertA m it.id it) acc
        = acc ++ prev.map (fun it => (it.id, it)) := by
  intro prev
  induction prev with
  | nil =>
    intro acc _ _
    simp
  | cons it rest ih =>
    intro acc hfresh hnd
    have hnd2 : (it.id :: rest.map LogItem.id).Nodup := by simpa using hnd
    rw [List.foldl_cons, upsertA_of_not_mem it (hfresh it (List.mem_cons_self it rest))]
    rw [ih (acc ++ [(it.id, it)]) ?fresh ?nd]
    · simp
    case fresh =>
      intro it2 h2 hmem
      rw [List.map_append, List.mem_append] at hmem
      rcases hmem with h | h
      · exact hfresh it2 (List.mem_cons_of_mem it h2) h
      · have hid : it2.id = it.id := by simpa using h
        have : it.id ∈ rest.map LogItem.id := hid ▸ List.mem_map_of_mem LogItem.id h2
        exact (List.nodup_cons.mp hnd2).1 this
    case nd => exact (List.nodup_cons.mp hnd2).2

theorem toMapById_eq {prev : List LogItem} (hn : (prev.map LogItem.id).Nodup) :
    toMapById prev = prev.map (fun it => (it.id, it)) := by
  unfold toMapById
  rw [foldl_upsert_pairs prev [] (by simp) hn]
  simp

theorem map_fst_toMapById {prev : List LogItem} (hn : (prev.map LogItem.id).Nodup) :
    (toMapById prev).map Prod.fst = prev.map LogItem.id := by
  rw [toMapById_eq hn, List.map_map]
  rfl

theorem logStep_skip {filter : Option String} {now : Nat} {m : List (String × LogItem)}
    {s : Segment} (h : segPasses filter s = false) : logStep filter now m s = m := by
  unfold logStep
  by_cases hl : langSkip filter (effLang s)
  · rw [if_pos hl]
  · have hf : isFinalOf s = false := by
      unfold segPasses at h
      rcases Bool.and_eq_false_iff.mp h with h1 | h1
      · simp at h1
        exact absurd h1 hl
      · exact h1
    rw [if_neg hl, hf]
    rfl

theorem logStep_guards {filter : Option String} {s : Segment}
    (h : segPasses filter s = true) :
    langSkip filter (effLang s) = false ∧ isFinalOf s = true := by
  unfold segPasses at h
  rcases Bool.and_eq_true_iff.mp h with ⟨h1, h2⟩
  refine ⟨?_, h2⟩
  simp at h1
  simp [h1]

theorem logStep_pass_fresh {filter : Option String} {now : Nat}
    {m : List (String × LogItem)} {s : Segment}
    (h : segPasses filter s = true) (hlk : lookupA m s.id = none) :
    logStep filter now m s = m ++ [(s.id, itemAt now s)] := by
  obtain ⟨h1, h2⟩ := logStep_guards h
  unfold logStep
  rw [if_neg (by rw [h1]; exact Bool.false_ne_true), h2]
  have hid : s.id ∉ m.map Prod.fst := (lookupA_eq_none_iff m s.id).mp hlk
  rw [hlk]
  exact upsertA_of_not_mem _ hid

theorem logStep_pass_existing {filter : Option String} {now : Nat}
    {m : List (String × LogItem)} {s : Segment} {e : LogItem}
    (h : segPasses filter s = true) (hlk : lookupA m s.id = some e) :
    logStep filter now m s =
      upsertA m s.id ⟨s.id, s.text, effLang s, resolvePsid s, e.time⟩ := by
  obtain ⟨h1, h2⟩ := logStep_guards h
  unfold logStep
  rw [if_neg (by rw [h1]; exact Bool.false_ne_true), h2]
  rw [hlk]
  rfl

theorem effBatch_cons_pass {filter : Option String} {s : Segment} (rest : List Segment)
    (h : segPasses filter s = true) :
    effBatch filter (s :: rest) = s :: effBatch filter rest := by
  simp [effBatch, List.filter_cons, h]

theorem effBatch_cons_skip {filter : Option String} {s : Segment} (rest : List Segment)
    (h : segPasses filter s = false) :
    effBatch filter (s :: rest) = effBatch filter rest := by
  simp [effBatch, List.filter_cons, h]

theorem foldl_logStep_fresh (filter : Option String) (now : Nat) :
    ∀ (batch : List Segment) (m : List (String × LogItem)),
      ((effBatch filter batch).map Segment.id).Nodup →
      (∀ s ∈ effBatch filter batch, s.id ∉ m.map Prod.fst) →
      batch.foldl (logStep filter now) m
        = m ++ (effBatch filter batch).map (fun s => (s.id, itemAt now s)) := by
  intro batch
  induction batch with
  | nil =>
    intro m _ _
    simp [effBatch]
  | cons s rest ih =>
    intro m hnd hfresh
    by_cases hp : segPasses filter s
    · have heff := effBatch_cons_pass rest hp
      have hnd2 : (s.id :: (effBatch filter rest).map Segment.id).Nodup := by
        rw [heff] at hnd
        simpa using hnd
      have hmem : s ∈ effBatch filter (s :: rest) := by
        rw [heff]
        exact List.mem_cons_self s _
      have hid : s.id ∉ m.map Prod.fst := hfresh s hmem
      have hlk : lookupA m s.id = none := (lookupA_eq_none_iff m s.id).mpr hid
      rw [List.foldl_cons, logStep_pass_fresh hp hlk,
        ih (m ++ [(s.id, itemAt now s)]) (List.nodup_cons.mp hnd2).2 ?fresh, heff]
      · simp
      case fresh =>
        intro s2 h2 hmem2
        rw [List.map_append, List.mem_append] at hmem2
        rcases hmem2 with h | h
        · exact hfresh s2 (heff ▸ List.mem_cons_of_mem s h2) h
        · have hids : s2.id = s.id := by simpa using h
          have : s.id ∈ (effBatch filter rest).map Segment.id :=
            hids ▸ List.mem_map_of_mem Segment.id h2
          exact (List.nodup_cons.mp hnd2).1 this
    · have hp2 : segPasses filter s = false := by
        cases hpp : segPasses filter s
        · rfl
        · exact absurd hpp hp
      have heff := effBatch_cons_skip rest hp2
      rw [List.foldl_cons, logStep_skip hp2, ih m ?nd ?fr, heff]
      case nd =>
        rw [heff] at hnd
        exact hnd
      case fr =>
        intro s2 h2
        exact hfresh s2 (heff ▸ h2)

theorem handleLog_normal (filter : Option String) (now : Nat)
    (prev : List LogItem) (batch : List Segment)
    (hp : (prev.map LogItem.id).Nodup)
    (hbn : ((effBatch filter batch).map Segment.id).Nodup)
    (hdisj : ∀ s ∈ effBatch filter batch, s.id ∉ prev.map LogItem.id) :
    handleLog filter now prev batch
      = lastN 100 ((prev ++ (effBatch filter batch).map (itemAt now)).insertionSort timeLE) := by
  unfold handleLog
  rw [toMapById_eq hp, foldl_logStep_fresh filter now batch _ hbn ?fr]
  · rw [List.map_append, List.map_map, List.map_map]
    have h1 : (Prod.snd ∘ fun it => (it.id, it)) = (id : LogItem → LogItem) := rfl
    have h2 : (Prod.snd ∘ fun s => (s.id, itemAt now s)) = itemAt now := rfl
    rw [h1, h2, List.map_id]
  case fr =>
    intro s hs hmem
    rw [List.map_map] at hmem
    exact hdisj s hs (by simpa using hmem)

/-- C8: the session-state reducer returns a new state without raising on every
state and every recognized action variant, and raises an error (rather than
silently ignoring or returning the state unchanged) on an unrecognized
action kind. -/
theorem reducer_total_on_known_and_raises_on_unknown :
    (∀ (s : State) (a : Action), ∃ s' : State, reducer s (.known a) = .ok s') ∧
    (∀ (s : State) (tag : String),
      reducer s (.unknown tag) = .error ("Unknown action: " ++ tag)) := by
  constructor
  · intro s a
    cases a <;> exact ⟨_, rfl⟩
  · intro s tag
    rfl

/-- C10: `FLIP_LANGUAGES` is an involution of the session state: a single
application swaps `inputLanguage` with `outputLanguage`, toggles
`currentSpeaker` between `user1` and `user2`, and leaves every other field
unchanged; applying it twice through the reducer returns the original
state. -/
theorem flip_languages_involution :
    ∀ s : State,
      reducer s (.known .FLIP_LANGUAGES) =
        .ok { s with
          inputLanguage := s.outputLanguage,
          outputLanguage := s.inputLanguage,
          currentSpeaker := if s.currentSpeaker = .user1 then .user2 else .user1 } ∧
      (reducer s (.known .FLIP_LANGUAGES)).bind
        (fun s' => reducer s' (.known .FLIP_LANGUAGES)) = .ok s := by
  intro s
  constructor
  · rfl
  · cases s with
    | mk token serverUrl shouldConnect captionsEnabled captionsLanguage isHost mode
        currentSpeaker inputLanguage outputLanguage =>
      cases currentSpeaker <;> rfl

/-! ## Multi-batch normal form of the transcript log. -/

theorem effBatch_eq_self {filter : Option String} {batch : List Segment}
    (h : ∀ s ∈ batch, segPasses filter s = true) : effBatch filter batch = batch :=
  List.filter_eq_self.mpr h

theorem itemAt_of_isSome {s : Segment} (h : s.firstReceivedTime.isSome) (now : Nat) :
    itemAt now s = itemAt 0 s := by
  obtain ⟨t, ht⟩ := Option.isSome_iff_exists.mp h
  unfold itemAt
  rw [ht]
  rfl

theorem map_id_of_map_itemAt (now : Nat) (l : List Segment) :
    (l.map (itemAt now)).map LogItem.id = l.map Segment.id := by
  rw [List.map_map]
  rfl

theorem map_time_of_map_itemAt0 (l : List Segment) :
    (l.map (itemAt 0)).map LogItem.time = l.map ftKey := by
  rw [List.map_map]
  rfl

theorem ingestBatches_normal (filter : Option String) :
    ∀ batches : List (Nat × List Segment),
      (∀ s ∈ (batches.map Prod.snd).flatten, segPasses filter s = true) →
      (∀ s ∈ (batches.map Prod.snd).flatten, s.firstReceivedTime.isSome) →
      (((batches.map Prod.snd).flatten).map Segment.id).Nodup →
      (((batches.map Prod.snd).flatten).map ftKey).Nodup →
      ingestBatches filter batches
        = lastN 100 ((((batches.map Prod.snd).flatten).map (itemAt 0)).insertionSort timeLE) := by
  intro batches
  induction batches using List.reverseRecOn with
  | nil =>
    intro _ _ _ _
    rfl
  | append_singleton bs nb ih =>
    intro hpass hsome hids htimes
    have hflat : (((bs ++ [nb]).map Prod.snd).flatten : List Segment)
        = (bs.map Prod.snd).flatten ++ nb.2 := by
      rw [List.map_append, List.flatten_append]
      simp
    rw [hflat] at hpass hsome hids htimes
    have hpassP : ∀ s ∈ (bs.map Prod.snd).flatten, segPasses filter s = true :=
      fun s hs => hpass s (List.mem_append_left _ hs)
    have hsomeP : ∀ s ∈ (bs.map Prod.snd).flatten, s.firstReceivedTime.isSome :=
      fun s hs => hsome s (List.mem_append_left _ hs)
    have hidsApp := hids
    rw [List.map_append] at hidsApp
    have hidsP : (((bs.map Prod.snd).flatten).map Segment.id).Nodup :=
      (List.nodup_append.mp hidsApp).1
    have hidsB : (nb.2.map Segment.id).Nodup := (List.nodup_append.mp hidsApp).2.1
    have hidsDisj : (((bs.map Prod.snd).flatten).map Segment.id).Disjoint
        (nb.2.map Segment.id) := (List.nodup_append.mp hidsApp).2.2
    have htimesP : (((bs.map Prod.snd).flatten).map ftKey).Nodup := by
      rw [List.map_append] at htimes
      exact (List.nodup_append.mp htimes).1
    have hstate := ih hpassP hsomeP hidsP htimesP
    have hstep : ingestBatches filter (bs ++ [nb])
        = handleLog filter nb.1 (ingestBatches filter bs) nb.2 := by
      unfold ingestBatches
      rw [List.foldl_append]
      rfl
    have hpermS : ((((bs.map Prod.snd).flatten).map (itemAt 0)).insertionSort timeLE).Perm
        (((bs.map Prod.snd).flatten).map (itemAt 0)) :=
      List.perm_insertionSort timeLE _
    have hsortIds : (((((bs.map Prod.snd).flatten).map (itemAt 0)).insertionSort
        timeLE).map LogItem.id).Nodup := by
      refine ((hpermS.map LogItem.id).nodup_iff).mpr ?_
      rw [map_id_of_map_itemAt]
      exact hidsP
    have hsubState : (lastN 100 ((((bs.map Prod.snd).flatten).map
        (itemAt 0)).insertionSort timeLE)).Sublist
        ((((bs.map Prod.snd).flatten).map (itemAt 0)).insertionSort timeLE) :=
      (lastN_suffix _ _).sublist
    have hstateIds : ((lastN 100 ((((bs.map Prod.snd).flatten).map
        (itemAt 0)).insertionSort timeLE)).map LogItem.id).Nodup :=
      List.Nodup.sublist (hsubState.map LogItem.id) hsortIds
    have heff : effBatch filter nb.2 = nb.2 :=
      effBatch_eq_self (fun s hs => hpass s (List.mem_append_right _ hs))
    have hdisj : ∀ s ∈ effBatch filter nb.2,
        s.id ∉ (lastN 100 ((((bs.map Prod.snd).flatten).map
          (itemAt 0)).insertionSort timeLE)).map LogItem.id := by
      rw [heff]
      intro s hs hmem
      have h1 : s.id ∈ ((((bs.map Prod.snd).flatten).map
          (itemAt 0)).insertionSort timeLE).map LogItem.id :=
        (hsubState.map LogItem.id).mem hmem
      have h2 : s.id ∈ (((bs.map Prod.snd).flatten).map (itemAt 0)).map LogItem.id :=
        ((hpermS.map LogItem.id).mem_iff).mp h1
      rw [map_id_of_map_itemAt] at h2
      exact hidsDisj h2 (List.mem_map_of_mem Segment.id hs)
    rw [hstep, hstate, handleLog_normal filter nb.1 _ nb.2 hstateIds
      (by rw [heff]; exact hidsB) hdisj, heff]
    have hmapAt : nb.2.map (itemAt nb.1) = nb.2.map (itemAt 0) :=
      List.map_congr_left
        (fun s hs => itemAt_of_isSome (hsome s (List.mem_append_right _ hs)) nb.1)
    rw [hmapAt]
    have habsTimes : ((((bs.map Prod.snd).flatten).map (itemAt 0)
        ++ nb.2.map (itemAt 0)).map LogItem.time).Nodup := by
      rw [List.map_append, map_time_of_map_itemAt0, map_time_of_map_itemAt0,
        ← List.map_append]
      exact htimes
    have habs := lastN_sort_absorb 100 (((bs.map Prod.snd).flatten).map (itemAt 0))
      (nb.2.map (itemAt 0)) habsTimes
    rw [habs, hflat, List.map_append]

/-- C4: after ingesting more than 100 distinct final segments (pairwise
distinct ids and arrival times, all passing the language filter and carrying
arrival times) across one or more batches, the transcript log holds exactly
100 entries: the 100 entries with the greatest `firstReceivedTime`, sorted
ascending by `firstReceivedTime`, the older entries having been dropped (every
ingested item not retained is strictly older than everything retained). -/
theorem bounded_log_100 (filter : Option String) (batches : List (Nat × List Segment))
    (hpass : ∀ s ∈ (batches.map Prod.snd).flatten, segPasses filter s = true)
    (hsome : ∀ s ∈ (batches.map Prod.snd).flatten, s.firstReceivedTime.isSome)
    (hids : (((batches.map Prod.snd).flatten).map Segment.id).Nodup)
    (htimes : (((batches.map Prod.snd).flatten).map ftKey).Nodup)
    (hlen : 100 < ((batches.map Prod.snd).flatten).length) :
    ingestBatches filter batches
        = lastN 100 ((((batches.map Prod.snd).flatten).map (itemAt 0)).insertionSort timeLE) ∧
      (ingestBatches filter batches).length = 100 ∧
      (ingestBatches filter batches).Sorted timeLE ∧
      ∀ x ∈ ((batches.map Prod.snd).flatten).map (itemAt 0),
        x ∈ ingestBatches filter batches ∨
          ∀ y ∈ ingestBatches filter batches, x.time < y.time := by
  have hnf := ingestBatches_normal filter batches hpass hsome hids htimes
  have hsorted : (((batches.map Prod.snd).flatten).map (itemAt 0)).insertionSort
      timeLE |>.Sorted timeLE := List.sorted_insertionSort timeLE _
  have hperm : ((((batches.map Prod.snd).flatten).map (itemAt 0)).insertionSort
      timeLE).Perm (((batches.map Prod.snd).flatten).map (itemAt 0)) :=
    List.perm_insertionSort timeLE _
  have hlen2 : ((((batches.map Prod.snd).flatten).map (itemAt 0)).insertionSort
      timeLE).length = ((batches.map Prod.snd).flatten).length := by
    rw [List.length_insertionSort, List.length_map]
  refine ⟨hnf, ?_, ?_, ?_⟩
  · rw [hnf, length_lastN, hlen2]
    omega
  · rw [hnf]
    exact List.Pairwise.sublist (lastN_suffix _ _).sublist hsorted
  · intro x hx
    have hntimes : ((((batches.map Prod.snd).flatten).map (itemAt 0)).map
        LogItem.time).Nodup := by
      rw [map_time_of_map_itemAt0]
      exact htimes
    have hpairlt : ((((batches.map Prod.snd).flatten).map (itemAt 0)).insertionSort
        timeLE).Pairwise timeLT :=
      pairwise_lt_of_sorted_nodup hsorted (nodup_times_of_perm hperm.symm hntimes)
    have hsplit := take_append_lastN 100
      ((((batches.map Prod.snd).flatten).map (itemAt 0)).insertionSort timeLE)
    have hxsort : x ∈ (((batches.map Prod.snd).flatten).map (itemAt 0)).insertionSort
        timeLE := hperm.mem_iff.mpr hx
    rw [← hsplit, List.mem_append] at hxsort
    rcases hxsort with hxF | hxT
    · right
      intro y hy
      rw [hnf] at hy
      exact (List.pairwise_append.mp (hsplit.symm ▸ hpairlt)).2.2 x hxF y hy
    · left
      rw [hnf]
      exact hxT

/-- Witness for C4 at a concrete 101-segment ingestion split over two
batches. -/
theorem bounded_log_100_witness :
    (100 < ((c4Batches.map Prod.snd).flatten).length) ∧
      (ingestBatches none c4Batches).length = 100 := by
  refine ⟨by decide, ?_⟩
  exact (bounded_log_100 none c4Batches (by decide) (by decide) (by decide)
    (by decide) (by decide)).2.1

/-! ## Second-pass behaviour of the transcript-log handler. -/

theorem lookupA_append_single_ne {α : Type} (m : List (String × α)) (k k' : String)
    (v : α) (h : k' ≠ k) : lookupA (m ++ [(k, v)]) k' = lookupA m k' := by
  cases hl : lookupA m k' with
  | some w => exact lookupA_append_of_some [(k, v)] hl
  | none =>
    rw [lookupA_append_of_none [(k, v)] hl, lookupA_cons,
      if_neg (fun hh => h hh.symm), lookupA_nil]

theorem contains_eq_isSome_lookupA {α : Type} (m : List (String × α)) (k : String) :
    ((m.map Prod.fst).contains k) = (lookupA m k).isSome := by
  cases hc : (m.map Prod.fst).contains k
  · cases hs : (lookupA m k).isSome
    · rfl
    · have h1 : (m.map Prod.fst).contains k = true :=
        List.elem_iff.mpr ((lookupA_isSome_iff m k).mp (by rw [hs]))
      rw [hc] at h1
      exact absurd h1 Bool.false_ne_true
  · exact ((lookupA_isSome_iff m k).mpr (List.elem_iff.mp hc)).symm

theorem foldl_logStep_present (filter : Option String) (now : Nat) :
    ∀ (batch : List Segment) (m : List (String × LogItem)),
      (m.map Prod.fst).Nodup →
      ((effBatch filter batch).map Segment.id).Nodup →
      (∀ s ∈ effBatch filter batch, ∀ e, lookupA m s.id = some e → e = itemAt now s) →
      batch.foldl (logStep filter now) m
        = m ++ ((effBatch filter batch).filter
            (fun s => !((m.map Prod.fst).contains s.id))).map
              (fun s => (s.id, itemAt now s)) := by
  intro batch
  induction batch with
  | nil =>
    intro m _ _ _
    simp [effBatch]
  | cons s rest ih =>
    intro m hmk hnd hval
    by_cases hp : segPasses filter s
    · have heff := effBatch_cons_pass rest hp
      rw [heff] at hnd hval
      have hndc : (s.id :: (effBatch filter rest).map Segment.id).Nodup := by
        rw [← List.map_cons]
        exact hnd
      have hnd2 := List.nodup_cons.mp hndc
      cases hl : lookupA m s.id with
      | some e =>
        have he : e = itemAt now s := hval s (List.mem_cons_self s _) e hl
        have hitem : (⟨s.id, s.text, effLang s, resolvePsid s, e.time⟩ : LogItem)
            = itemAt now s := by
          rw [he]
          rfl
        have hstep : logStep filter now m s = m := by
          rw [logStep_pass_existing hp hl, hitem]
          exact upsertA_eq_self hmk (he ▸ hl)
        have hcont : (m.map Prod.fst).contains s.id = true := by
          apply List.elem_iff.mpr
          rw [← lookupA_isSome_iff, hl]
          rfl
        rw [List.foldl_cons, hstep,
          ih m hmk hnd2.2 (fun s2 h2 => hval s2 (List.mem_cons_of_mem s h2)), heff,
          List.filter_cons]
        rw [hcont]
        rfl
      | none =>
        have hid : s.id ∉ m.map Prod.fst := (lookupA_eq_none_iff m s.id).mp hl
        have hcont : (m.map Prod.fst).contains s.id = false := by
          cases hcc : (m.map Prod.fst).contains s.id
          · rfl
          · exact absurd (List.elem_iff.mp hcc) hid
        have hstep : logStep filter now m s = m ++ [(s.id, itemAt now s)] :=
          logStep_pass_fresh hp hl
        have hmk2 : ((m ++ [(s.id, itemAt now s)]).map Prod.fst).Nodup := by
          rw [List.map_append]
          refine List.Nodup.append hmk (by simp) ?_
          intro a ha hb
          have : a = s.id := by simpa using hb
          exact hid (this ▸ ha)
        have hval2 : ∀ s2 ∈ effBatch filter rest, ∀ e,
            lookupA (m ++ [(s.id, itemAt now s)]) s2.id = some e → e = itemAt now s2 := by
          intro s2 h2 e he
          have hne : s2.id ≠ s.id := by
            intro hh
            exact hnd2.1 (hh ▸ List.mem_map_of_mem Segment.id h2)
          rw [lookupA_append_single_ne m s.id s2.id _ hne] at he
          exact hval s2 (List.mem_cons_of_mem s h2) e he
        rw [List.foldl_cons, hstep, ih _ hmk2 hnd2.2 hval2, heff, List.filter_cons]
        rw [hcont]
        have hfilt : (effBatch filter rest).filter
            (fun s2 => !(((m ++ [(s.id, itemAt now s)]).map Prod.fst).contains s2.id))
            = (effBatch filter rest).filter
              (fun s2 => !((m.map Prod.fst).contains s2.id)) := by
          apply List.filter_congr
          intro s2 h2
          have hne : s2.id ≠ s.id := by
            intro hh
            exact hnd2.1 (hh ▸ List.mem_map_of_mem Segment.id h2)
          rw [contains_eq_isSome_lookupA, contains_eq_isSome_lookupA,
            lookupA_append_single_ne m s.id s2.id _ hne]
        rw [hfilt]
        simp
    · have hp2 : segPasses filter s = false := by
        cases hpp : segPasses filter s
        · rfl
        · exact absurd hpp hp
      have heff := effBatch_cons_skip rest hp2
      rw [heff] at hnd hval
      rw [List.foldl_cons, logStep_skip hp2, ih m hmk hnd hval, heff]

theorem lastN_sort_dominated (R D : List LogItem)
    (hRsorted : R.Sorted timeLE)
    (hRlen : R.length ≤ 100)
    (htimes : ((R ++ D).map LogItem.time).Nodup)
    (hdom : ∀ d ∈ D, 100 ≤ R.countP (fun y => decide (d.time < y.time))) :
    lastN 100 ((R ++ D).insertionSort timeLE) = R := by
  rw [insertionSort_perm_invariant (List.perm_append_comm) htimes,
    insertionSort_append_foldr, List.Sorted.insertionSort_eq hRsorted,
    lastN_foldr_orderedInsert_absorbed hdom, lastN_of_length_le hRlen]

theorem handleLog_idempotent (filter : Option String) (now : Nat)
    (prev : List LogItem) (batch : List Segment)
    (hprevIds : (prev.map LogItem.id).Nodup)
    (hbids : ((effBatch filter batch).map Segment.id).Nodup)
    (hdisj : ∀ s ∈ effBatch filter batch, s.id ∉ prev.map LogItem.id)
    (htimes : ((prev ++ (effBatch filter batch).map (itemAt now)).map
      LogItem.time).Nodup) :
    handleLog filter now (handleLog filter now prev batch) batch
      = handleLog filter now prev batch := by
  have hinj : ∀ x ∈ prev ++ (effBatch filter batch).map (itemAt now),
      ∀ y ∈ prev ++ (effBatch filter batch).map (itemAt now),
      x.time = y.time → x = y := List.inj_on_of_nodup_map htimes
  have hAMids : ((prev ++ (effBatch filter batch).map (itemAt now)).map
      LogItem.id).Nodup := by
    rw [List.map_append, map_id_of_map_itemAt]
    refine List.nodup_append.mpr ⟨hprevIds, hbids, ?_⟩
    intro a ha hb
    obtain ⟨s2, hs2, hsid⟩ := List.mem_map.mp hb
    exact hdisj s2 hs2 (hsid ▸ ha)
  have hnf := handleLog_normal filter now prev batch hprevIds hbids hdisj
  have hSperm : ((prev ++ (effBatch filter batch).map
      (itemAt now)).insertionSort timeLE).Perm
      (prev ++ (effBatch filter batch).map (itemAt now)) :=
    List.perm_insertionSort timeLE _
  have hRsub : (lastN 100 ((prev ++ (effBatch filter batch).map
      (itemAt now)).insertionSort timeLE)).Sublist
      ((prev ++ (effBatch filter batch).map (itemAt now)).insertionSort timeLE) :=
    (lastN_suffix _ _).sublist
  have hRmem : ∀ x ∈ lastN 100 ((prev ++ (effBatch filter batch).map
      (itemAt now)).insertionSort timeLE),
      x ∈ prev ++ (effBatch filter batch).map (itemAt now) :=
    fun x hx => hSperm.mem_iff.mp (hRsub.mem hx)
  have hRids : ((lastN 100 ((prev ++ (effBatch filter batch).map
      (itemAt now)).insertionSort timeLE)).map LogItem.id).Nodup :=
    List.Nodup.sublist (hRsub.map LogItem.id)
      (((hSperm.map LogItem.id).nodup_iff).mpr hAMids)
  have hRsorted : (lastN 100 ((prev ++ (effBatch filter batch).map
      (itemAt now)).insertionSort timeLE)).Sorted timeLE :=
    List.Pairwise.sublist hRsub (List.sorted_insertionSort timeLE _)
  have hkeys : (toMapById (lastN 100 ((prev ++ (effBatch filter batch).map
      (itemAt now)).insertionSort timeLE))).map Prod.fst
      = (lastN 100 ((prev ++ (effBatch filter batch).map
        (itemAt now)).insertionSort timeLE)).map LogItem.id :=
    map_fst_toMapById hRids
  have hlookup : ∀ s ∈ effBatch filter batch, ∀ e,
      lookupA (toMapById (lastN 100 ((prev ++ (effBatch filter batch).map
        (itemAt now)).insertionSort timeLE))) s.id = some e → e = itemAt now s := by
    intro s hs e he
    rw [toMapById_eq hRids] at he
    have hmem := lookupA_mem he
    obtain ⟨r, hr, hre⟩ := List.mem_map.mp hmem
    have hrid : r.id = s.id := congrArg Prod.fst hre
    have hrv : r = e := congrArg Prod.snd hre
    have hrAM := hRmem r hr
    rcases List.mem_append.mp hrAM with hrp | hrm
    · exact absurd (hrid ▸ List.mem_map_of_mem LogItem.id hrp) (hdisj s hs)
    · obtain ⟨s2, hs2, hs2e⟩ := List.mem_map.mp hrm
      have hs2id : s2.id = s.id := by
        rw [← hrid, ← hs2e]
        rfl
      have : s2 = s := List.inj_on_of_nodup_map hbids hs2 hs hs2id
      rw [← hrv, ← hs2e, this]
  have hpass2 := foldl_logStep_present filter now batch
    (toMapById (lastN 100 ((prev ++ (effBatch filter batch).map
      (itemAt now)).insertionSort timeLE)))
    (by rw [hkeys]; exact hRids) hbids hlookup
  rw [hnf]
  show lastN 100 ((List.map Prod.snd (batch.foldl (logStep filter now)
    (toMapById (lastN 100 ((prev ++ (effBatch filter batch).map
      (itemAt now)).insertionSort timeLE))))).insertionSort timeLE) = _
  rw [hpass2, List.map_append, toMapById_eq hRids, List.map_map, List.map_map]
  have hsnd1 : (Prod.snd ∘ fun it : LogItem => (it.id, it)) = id := rfl
  have hsnd2 : (Prod.snd ∘ fun s : Segment => (s.id, itemAt now s)) = itemAt now := rfl
  rw [hsnd1, hsnd2, List.map_id]
  have hSt : (((prev ++ (effBatch filter batch).map
      (itemAt now)).insertionSort timeLE).map LogItem.time).Nodup :=
    nodup_times_of_perm hSperm.symm htimes
  have hRt : ((lastN 100 ((prev ++ (effBatch filter batch).map
      (itemAt now)).insertionSort timeLE)).map LogItem.time).Nodup :=
    List.Nodup.sublist (hRsub.map LogItem.time) hSt
  have hMt : (((effBatch filter batch).map (itemAt now)).map LogItem.time).Nodup := by
    rw [List.map_append] at htimes
    exact (List.nodup_append.mp htimes).2.1
  have hDfact : ∀ d ∈ ((effBatch filter batch).filter
      (fun s => !((List.map Prod.fst ((lastN 100 ((prev ++ (effBatch filter
        batch).map (itemAt now)).insertionSort timeLE)).map
          (fun it => (it.id, it)))).contains s.id))).map (itemAt now),
      ∃ s, s ∈ effBatch filter batch ∧ d = itemAt now s ∧
        s.id ∉ (lastN 100 ((prev ++ (effBatch filter batch).map
          (itemAt now)).insertionSort timeLE)).map LogItem.id := by
    intro d hd
    obtain ⟨s2, hsf, hrfl⟩ := List.mem_map.mp hd
    obtain ⟨hse, hspred⟩ := List.mem_filter.mp hsf
    refine ⟨s2, hse, hrfl.symm, ?_⟩
    intro hmem
    rw [Bool.not_eq_true'] at hspred
    have hcmem : ((List.map Prod.fst ((lastN 100 ((prev ++ (effBatch filter
        batch).map (itemAt now)).insertionSort timeLE)).map
          (fun it => (it.id, it))))).contains s2.id = true := by
      apply List.elem_iff.mpr
      rw [List.map_map]
      exact hmem
    rw [hspred] at hcmem
    exact Bool.false_ne_true hcmem
  have hDsub : (((effBatch filter batch).filter
      (fun s => !((List.map Prod.fst ((lastN 100 ((prev ++ (effBatch filter
        batch).map (itemAt now)).insertionSort timeLE)).map
          (fun it => (it.id, it)))).contains s.id))).map (itemAt now)).Sublist
      ((effBatch filter batch).map (itemAt now)) :=
    (List.filter_sublist _).map (itemAt now)
  apply lastN_sort_dominated _ _ hRsorted ?hlen ?htm ?hdom
  case hlen =>
    rw [length_lastN]
    exact Nat.min_le_left _ _
  case htm =>
    rw [List.map_append]
    refine List.nodup_append.mpr ⟨hRt, List.Nodup.sublist
      (hDsub.map LogItem.time) hMt, ?_⟩
    intro a ha hb
    obtain ⟨r, hr, hrt⟩ := List.mem_map.mp ha
    obtain ⟨d, hdD, hdt⟩ := List.mem_map.mp hb
    obtain ⟨s2, hse, hds, hsid⟩ := hDfact d hdD
    have hrAM := hRmem r hr
    have hdAM : d ∈ prev ++ (effBatch filter batch).map (itemAt now) := by
      rw [hds]
      exact List.mem_append_right _ (List.mem_map_of_mem (itemAt now) hse)
    have hrd : r = d := hinj r hrAM d hdAM (by rw [hrt, hdt])
    have : s2.id ∈ (lastN 100 ((prev ++ (effBatch filter batch).map
        (itemAt now)).insertionSort timeLE)).map LogItem.id := by
      have : r.id = s2.id := by
        rw [hrd, hds]
        rfl
      exact this ▸ List.mem_map_of_mem LogItem.id hr
    exact hsid this
  case hdom =>
    intro d hdD
    obtain ⟨s2, hse, hds, hsid⟩ := hDfact d hdD
    have hdAM : d ∈ prev ++ (effBatch filter batch).map (itemAt now) := by
      rw [hds]
      exact List.mem_append_right _ (List.mem_map_of_mem (itemAt now) hse)
    have hdS : d ∈ (prev ++ (effBatch filter batch).map
        (itemAt now)).insertionSort timeLE := hSperm.mem_iff.mpr hdAM
    have hdR : d ∉ lastN 100 ((prev ++ (effBatch filter batch).map
        (itemAt now)).insertionSort timeLE) := by
      intro hdr
      apply hsid
      have : d.id = s2.id := by
        rw [hds]
        rfl
      exact this ▸ List.mem_map_of_mem LogItem.id hdr
    have hsplit := take_append_lastN 100
      ((prev ++ (effBatch filter batch).map (itemAt now)).insertionSort timeLE)
    have hdF : d ∈ ((prev ++ (effBatch filter batch).map
        (itemAt now)).insertionSort timeLE).take
        (((prev ++ (effBatch filter batch).map
          (itemAt now)).insertionSort timeLE).length - 100) := by
      rw [← hsplit, List.mem_append] at hdS
      rcases hdS with h | h
      · exact h
      · exact absurd h hdR
    have hlong : 100 < ((prev ++ (effBatch filter batch).map
        (itemAt now)).insertionSort timeLE).length := by
      by_contra hle
      rw [Nat.not_lt] at hle
      rw [Nat.sub_eq_zero_of_le hle, List.take_zero] at hdF
      exact absurd hdF (List.not_mem_nil d)
    have hRlen : (lastN 100 ((prev ++ (effBatch filter batch).map
        (itemAt now)).insertionSort timeLE)).length = 100 := by
      rw [length_lastN]
      omega
    have hpairS : ((prev ++ (effBatch filter batch).map
        (itemAt now)).insertionSort timeLE).Pairwise timeLT :=
      pairwise_lt_of_sorted_nodup (List.sorted_insertionSort timeLE _) hSt
    have hlt : ∀ r ∈ lastN 100 ((prev ++ (effBatch filter batch).map
        (itemAt now)).insertionSort timeLE), timeLT d r :=
      fun r hr => (List.pairwise_append.mp (hsplit.symm ▸ hpairS)).2.2 d hdF r hr
    rw [List.countP_eq_length.mpr
      (fun r hr => decide_eq_true (show d.time < r.time from hlt r hr)), hRlen]

/-! ## Captions-store slot theory. -/

theorem capStep_bucket_self (acc : TransStore) (s : Segment) :
    lookupA (capStep acc s) (effLang s)
      = some (upsertA ((lookupA acc (effLang s)).getD []) s.id s) := by
  unfold capStep
  exact lookupA_upsertA_self _ _ _

theorem capStep_bucket_other (acc : TransStore) (s : Segment) (lang : String)
    (h : lang ≠ effLang s) :
    lookupA (capStep acc s) lang = lookupA acc lang := by
  unfold capStep
  exact lookupA_upsertA_ne _ _ _ _ h

theorem capStep_lookup2_self (acc : TransStore) (s : Segment) :
    lookup2 (capStep acc s) (effLang s) s.id = some s := by
  unfold lookup2
  rw [capStep_bucket_self, Option.some_bind]
  exact lookupA_upsertA_self _ _ _

theorem capStep_lookup2_other (acc : TransStore) (s : Segment) (lang id : String)
    (h : ¬(lang = effLang s ∧ id = s.id)) :
    lookup2 (capStep acc s) lang id = lookup2 acc lang id := by
  by_cases hl : lang = effLang s
  · have hid : id ≠ s.id := fun hh => h ⟨hl, hh⟩
    unfold lookup2
    rw [hl, capStep_bucket_self, Option.some_bind,
      lookupA_upsertA_ne _ _ _ _ hid]
    cases hb : lookupA acc (effLang s) with
    | none => exact lookupA_nil id
    | some b => rfl
  · unfold lookup2
    rw [capStep_bucket_other _ _ _ hl]

theorem lookup2_capStep_isSome {acc : TransStore} {lang id : String} (s : Segment)
    (h : (lookup2 acc lang id).isSome) : (lookup2 (capStep acc s) lang id).isSome := by
  by_cases hli : lang = effLang s ∧ id = s.id
  · rw [hli.1, hli.2, capStep_lookup2_self]
    rfl
  · rw [capStep_lookup2_other _ _ _ _ hli]
    exact h

theorem storeWF_capStep {acc : TransStore} (h : storeWF acc) (s : Segment) :
    storeWF (capStep acc s) := by
  obtain ⟨ho, hi⟩ := h
  have hbn : (((lookupA acc (effLang s)).getD []).map Prod.fst).Nodup := by
    cases hb : lookupA acc (effLang s) with
    | none => exact List.nodup_nil
    | some b => exact hi (effLang s, b) (lookupA_mem hb)
  constructor
  · unfold capStep
    exact nodup_map_fst_upsertA ho
  · intro p hp
    unfold capStep at hp
    by_cases hl : effLang s ∈ acc.map Prod.fst
    · rw [upsertA_of_mem _ hl] at hp
      obtain ⟨q, hq, hpq⟩ := List.mem_map.mp hp
      by_cases hq1 : q.1 = effLang s
      · rw [if_pos hq1] at hpq
        rw [← hpq]
        exact nodup_map_fst_upsertA hbn
      · rw [if_neg hq1] at hpq
        exact hpq ▸ hi q hq
    · rw [upsertA_of_not_mem _ hl] at hp
      rcases List.mem_append.mp hp with hq | hq
      · exact hi p hq
      · have : p = (effLang s, upsertA ((lookupA acc (effLang s)).getD []) s.id s) := by
          simpa using hq
        rw [this]
        exact nodup_map_fst_upsertA hbn

theorem storeWF_updateTranscriptions {store : TransStore} (h : storeWF store)
    (batch : List Segment) : storeWF (updateTranscriptions store batch) := by
  induction batch generalizing store with
  | nil => exact h
  | cons s rest ih => exact ih (storeWF_capStep h s)

/-- The slot predicate of the captions write for segment `s`. -/
theorem lookup2_updateTranscriptions (lang id : String) :
    ∀ (batch : List Segment) (m : TransStore),
      lookup2 (updateTranscriptions m batch) lang id
        = match (batch.filter
            (fun s => (effLang s == lang) && (s.id == id))).getLast? with
          | some s => some s
          | none => lookup2 m lang id := by
  intro batch
  induction batch using List.reverseRecOn with
  | nil =>
    intro m
    rfl
  | append_singleton rest s ih =>
    intro m
    have hupd : updateTranscriptions m (rest ++ [s])
        = capStep (updateTranscriptions m rest) s := by
      unfold updateTranscriptions
      rw [List.foldl_append]
      rfl
    rw [hupd, List.filter_append]
    by_cases hp : ((effLang s == lang) && (s.id == id)) = true
    · have hfs : List.filter (fun s => (effLang s == lang) && (s.id == id)) [s] = [s] := by
        simp [hp]
      rw [hfs, List.getLast?_concat]
      obtain ⟨h1, h2⟩ := Bool.and_eq_true_iff.mp hp
      have hlang : effLang s = lang := by simpa using h1
      have hid : s.id = id := by simpa using h2
      rw [← hlang, ← hid, capStep_lookup2_self]
    · have hfs : List.filter (fun s => (effLang s == lang) && (s.id == id)) [s] = [] := by
        simp only [List.filter]
        cases hpp : ((effLang s == lang) && (s.id == id))
        · rfl
        · exact absurd hpp hp
      rw [hfs, List.append_nil]
      have hno : ¬(lang = effLang s ∧ id = s.id) := by
        rintro ⟨hl, hi2⟩
        apply hp
        rw [Bool.and_eq_true_iff]
        constructor
        · simp [hl]
        · simp [hi2]
      rw [capStep_lookup2_other _ _ _ _ hno]
      exact ih m

theorem slot_present_updateTranscriptions (store : TransStore) (batch : List Segment)
    {s : Segment} (hs : s ∈ batch) :
    (lookup2 (updateTranscriptions store batch) (effLang s) s.id).isSome := by
  rw [lookup2_updateTranscriptions]
  have hmem : s ∈ batch.filter
      (fun t => (effLang t == effLang s) && (t.id == s.id)) := by
    rw [List.mem_filter]
    exact ⟨hs, by simp⟩
  have hne : batch.filter (fun t => (effLang t == effLang s) && (t.id == s.id)) ≠ [] :=
    List.ne_nil_of_mem hmem
  obtain ⟨x, hx⟩ := Option.isSome_iff_exists.mp (List.getLast?_isSome.mpr hne)
  rw [hx]
  rfl

theorem capStep_keys_structure {acc : TransStore} {s : Segment}
    (hp : (lookup2 acc (effLang s) s.id).isSome) :
    (capStep acc s).map Prod.fst = acc.map Prod.fst ∧
      ∀ lang, (lookupA (capStep acc s) lang).map (fun b => b.map Prod.fst)
        = (lookupA acc lang).map (fun b => b.map Prod.fst) := by
  unfold lookup2 at hp
  cases hb : lookupA acc (effLang s) with
  | none =>
    rw [hb] at hp
    exact absurd hp (by simp)
  | some b =>
    rw [hb, Option.some_bind] at hp
    have hidb : s.id ∈ b.map Prod.fst := (lookupA_isSome_iff b s.id).mp hp
    have hkey : effLang s ∈ acc.map Prod.fst := by
      rw [← lookupA_isSome_iff, hb]
      rfl
    constructor
    · unfold capStep
      rw [map_fst_upsertA, if_pos hkey]
    · intro lang
      by_cases hl : lang = effLang s
      · subst hl
        rw [capStep_bucket_self, hb]
        show some ((upsertA b s.id s).map Prod.fst) = some (b.map Prod.fst)
        rw [map_fst_upsertA, if_pos hidb]
      · rw [capStep_bucket_other _ _ _ hl]

theorem updateTranscriptions_keys_structure :
    ∀ (batch : List Segment) (store : TransStore),
      (∀ s ∈ batch, (lookup2 store (effLang s) s.id).isSome) →
      (updateTranscriptions store batch).map Prod.fst = store.map Prod.fst ∧
        ∀ lang, (lookupA (updateTranscriptions store batch) lang).map
            (fun b => b.map Prod.fst)
          = (lookupA store lang).map (fun b => b.map Prod.fst) := by
  intro batch
  induction batch with
  | nil =>
    intro store _
    exact ⟨rfl, fun _ => rfl⟩
  | cons s rest ih =>
    intro store hp
    have hps : (lookup2 store (effLang s) s.id).isSome := hp s (List.mem_cons_self s _)
    have h1 := capStep_keys_structure hps
    have hp2 : ∀ t ∈ rest, (lookup2 (capStep store s) (effLang t) t.id).isSome :=
      fun t ht => lookup2_capStep_isSome s (hp t (List.mem_cons_of_mem s ht))
    have h2 := ih (capStep store s) hp2
    exact ⟨h2.1.trans h1.1, fun lang => (h2.2 lang).trans (h1.2 lang)⟩

theorem store_ext (m₁ m₂ : TransStore)
    (hk : m₁.map Prod.fst = m₂.map Prod.fst)
    (hbk : ∀ lang, (lookupA m₁ lang).map (fun b => b.map Prod.fst)
      = (lookupA m₂ lang).map (fun b => b.map Prod.fst))
    (hwf₁ : storeWF m₁)
    (hl : ∀ lang id, lookup2 m₁ lang id = lookup2 m₂ lang id) : m₁ = m₂ := by
  apply lookupA_ext m₁ m₂ hk hwf₁.1
  intro lang
  cases h1 : lookupA m₁ lang with
  | none =>
    have h0 : lang ∉ m₁.map Prod.fst := (lookupA_eq_none_iff _ _).mp h1
    rw [(lookupA_eq_none_iff m₂ lang).mpr (hk ▸ h0)]
  | some b₁ =>
    cases h2 : lookupA m₂ lang with
    | none =>
      exfalso
      have h0 : lang ∉ m₂.map Prod.fst := (lookupA_eq_none_iff _ _).mp h2
      have hmem : lang ∈ m₁.map Prod.fst := by
        rw [← lookupA_isSome_iff, h1]
        rfl
      exact h0 (hk ▸ hmem)
    | some b₂ =>
      congr 1
      have hkeys : b₁.map Prod.fst = b₂.map Prod.fst := by
        have := hbk lang
        rw [h1, h2] at this
        exact Option.some.inj (by simpa using this)
      apply lookupA_ext b₁ b₂ hkeys (hwf₁.2 (lang, b₁) (lookupA_mem h1))
      intro id
      have := hl lang id
      unfold lookup2 at this
      rw [h1, h2, Option.some_bind, Option.some_bind] at this
      exact this

theorem updateTranscriptions_idempotent (store : TransStore) (batch : List Segment)
    (hwf : storeWF store) :
    updateTranscriptions (updateTranscriptions store batch) batch
      = updateTranscriptions store batch := by
  have hwfR := storeWF_updateTranscriptions hwf batch
  have hwfRR := storeWF_updateTranscriptions hwfR batch
  have hslots : ∀ s ∈ batch,
      (lookup2 (updateTranscriptions store batch) (effLang s) s.id).isSome :=
    fun s hs => slot_present_updateTranscriptions store batch hs
  obtain ⟨hok, hbk⟩ := updateTranscriptions_keys_structure batch
    (updateTranscriptions store batch) hslots
  apply store_ext _ _ hok hbk hwfRR
  intro lang id
  have hR := lookup2_updateTranscriptions lang id batch (updateTranscriptions store batch)
  have hS := lookup2_updateTranscriptions lang id batch store
  rw [hR]
  cases hlw : (batch.filter (fun s => (effLang s == lang) && (s.id == id))).getLast? with
  | some s =>
    show some s = lookup2 (updateTranscriptions store batch) lang id
    rw [hS, hlw]
  | none =>
    show lookup2 (updateTranscriptions store batch) lang id
      = lookup2 (updateTranscriptions store batch) lang id
    rfl

/-! ## Inclusion without trimming. -/

theorem length_upsertA_le {α : Type} (m : List (String × α)) (k : String) (v : α) :
    (upsertA m k v).length ≤ m.length + 1 := by
  by_cases h : k ∈ m.map Prod.fst
  · rw [upsertA_of_mem _ h, List.length_map]
    omega
  · rw [upsertA_of_not_mem _ h, List.length_append]
    simp

theorem length_upsertA_of_mem {α : Type} (m : List (String × α)) (k : String) (v : α)
    (h : k ∈ m.map Prod.fst) : (upsertA m k v).length = m.length := by
  rw [upsertA_of_mem _ h, List.length_map]

theorem length_toMapById_le (prev : List LogItem) :
    (toMapById prev).length ≤ prev.length := by
  suffices h : ∀ (l : List LogItem) (acc : List (String × LogItem)),
      (l.foldl (fun m it => upsertA m it.id it) acc).length ≤ acc.length + l.length by
    simpa using h prev []
  intro l
  induction l with
  | nil =>
    intro acc
    simp
  | cons it rest ih =>
    intro acc
    rw [List.foldl_cons]
    have h1 := ih (upsertA acc it.id it)
    have h2 := length_upsertA_le acc it.id it
    calc (rest.foldl (fun m it => upsertA m it.id it) (upsertA acc it.id it)).length
        ≤ (upsertA acc it.id it).length + rest.length := h1
      _ ≤ acc.length + (it :: rest).length := by
          rw [List.length_cons]
          omega

theorem logStep_lookup_self {filter : Option String} {now : Nat}
    {m : List (String × LogItem)} {s : Segment}
    (h : segPasses filter s = true) :
    lookupA (logStep filter now m s) s.id
      = some ⟨s.id, s.text, effLang s, resolvePsid s,
          match lookupA m s.id with
          | some e => e.time
          | none => s.firstReceivedTime.getD now⟩ := by
  cases hl : lookupA m s.id with
  | none =>
    rw [logStep_pass_fresh h hl, lookupA_append_of_none _ hl, lookupA_cons,
      if_pos rfl]
    rfl
  | some e =>
    rw [logStep_pass_existing h hl]
    exact lookupA_upsertA_self _ _ _

theorem length_logStep_le (filter : Option String) (now : Nat)
    (m : List (String × LogItem)) (s : Segment) :
    (logStep filter now m s).length ≤ m.length + 1 := by
  by_cases hp : segPasses filter s
  · cases hl : lookupA m s.id with
    | none =>
      rw [logStep_pass_fresh hp hl, List.length_append]
      simp
    | some e =>
      rw [logStep_pass_existing hp hl]
      exact length_upsertA_le _ _ _
  · have hp2 : segPasses filter s = false := by
      cases hpp : segPasses filter s
      · rfl
      · exact absurd hpp hp
    rw [logStep_skip hp2]
    omega

theorem handleLog_singleton_no_trim (filter : Option String) (now : Nat)
    (prev : List LogItem) (s : Segment) (hlen : prev.length < 100) :
    handleLog filter now prev [s]
      = ((logStep filter now (toMapById prev) s).map Prod.snd).insertionSort timeLE := by
  unfold handleLog
  rw [List.foldl_cons, List.foldl_nil]
  apply lastN_of_length_le
  rw [List.length_insertionSort, List.length_map]
  have h1 := length_logStep_le filter now (toMapById prev) s
  have h2 := length_toMapById_le prev
  omega

theorem handleLog_singleton_mem (filter : Option String) (now : Nat)
    (prev : List LogItem) (s : Segment) (hlen : prev.length < 100)
    (hpass : segPasses filter s = true) :
    (⟨s.id, s.text, effLang s, resolvePsid s,
        match lookupA (toMapById prev) s.id with
        | some e => e.time
        | none => s.firstReceivedTime.getD now⟩ : LogItem)
      ∈ handleLog filter now prev [s] := by
  rw [handleLog_singleton_no_trim filter now prev s hlen]
  rw [List.mem_insertionSort]
  have hlk : lookupA (logStep filter now (toMapById prev) s) s.id
      = some ⟨s.id, s.text, effLang s, resolvePsid s,
          match lookupA (toMapById prev) s.id with
          | some e => e.time
          | none => s.firstReceivedTime.getD now⟩ := logStep_lookup_self hpass
  have := lookupA_mem hlk
  exact List.mem_map_of_mem Prod.snd this

/-! ## Claim C2: finality filter. -/

/-- C2 counterexample: a segment delivered with finality present and `false`
IS retained in a language bucket of the captions store, so the claim that it
is excluded from the stores consumed by both the transcript-log and caption
views is false. -/
theorem finality_filter_counterexample :
    lookup2 (updateTranscriptions []
        [⟨"1", "hi", "en", some false, none, none, none, some 100⟩]) "en" "1"
      = some ⟨"1", "hi", "en", some false, none, none, none, some 100⟩ := by
  decide

/-- C2 amended: the finality filter applies to the transcript-log store only:
a segment with `final = some false` leaves the transcript-log store unchanged,
and a later delivery with finality true or absent (and passing the language
filter, with the log below its 100-entry bound) is included; the captions
store retains every delivered segment in its language bucket regardless of
finality. -/
theorem finality_filter_amended :
    (∀ (filter : Option String) (now : Nat) (prev : List LogItem)
        (s : Segment) (rest : List Segment), s.final = some false →
        handleLog filter now prev (s :: rest) = handleLog filter now prev rest) ∧
      (∀ (filter : Option String) (now : Nat) (prev : List LogItem) (s : Segment),
        isFinalOf s = true → langSkip filter (effLang s) = false →
        prev.length < 100 →
        ∃ it ∈ handleLog filter now prev [s], it.id = s.id) ∧
      (∀ (store : TransStore) (batch : List Segment) (s : Segment), s ∈ batch →
        (lookup2 (updateTranscriptions store batch) (effLang s) s.id).isSome) := by
  refine ⟨?_, ?_, ?_⟩
  · intro filter now prev s rest hf
    unfold handleLog
    rw [List.foldl_cons, logStep_skip]
    unfold segPasses isFinalOf
    rw [hf]
    rw [Bool.and_false]
  · intro filter now prev s hfin hlang hlen
    have hpass : segPasses filter s = true := by
      unfold segPasses
      rw [hlang, hfin]
      rfl
    exact ⟨_, handleLog_singleton_mem filter now prev s hlen hpass, rfl⟩
  · intro store batch s hs
    exact slot_present_updateTranscriptions store batch hs

/-- Witness for C2 (amended) at concrete inputs. -/
theorem finality_filter_amended_witness :
    handleLog none 0 [] [⟨"1", "a", "en", some false, none, none, none, some 5⟩]
        = handleLog none 0 [] ([] : List Segment) ∧
      (∃ it ∈ handleLog none 0 []
          [⟨"1", "b", "en", some true, none, none, none, some 6⟩], it.id = "1") ∧
      (lookup2 (updateTranscriptions []
          [⟨"1", "c", "en", some false, none, none, none, some 7⟩]) "en" "1").isSome :=
  ⟨finality_filter_amended.1 none 0 []
      ⟨"1", "a", "en", some false, none, none, none, some 5⟩ [] (by decide),
    by
      have h := finality_filter_amended.2.1 none 0 []
        ⟨"1", "b", "en", some true, none, none, none, some 6⟩ (by decide) (by decide)
        (by decide)
      simpa using h,
    finality_filter_amended.2.2 []
      [⟨"1", "c", "en", some false, none, none, none, some 7⟩]
      ⟨"1", "c", "en", some false, none, none, none, some 7⟩ (by decide)⟩

/-! ## Claim C7: per-participant transcript index. -/

/-- C7 counterexample: a segment with finality present and `false` but a
resolvable participant sid DOES overwrite the per-participant index, so the
claim that the index applies the same finality rules as the segment store is
false. -/
theorem per_participant_finality_counterexample :
    handleByParticipant none []
        [⟨"1", "hello", "en", some false, some "p1", none, none, none⟩]
      = [("p1", "hello")] := by
  decide

/-- C7 amended: the per-participant index overwrites `participantId → text`
exactly when the segment passes the language filter and carries a truthy
resolved participant sid — the finality rule of the segment store is NOT
applied; within a batch the writes happen in array order (last write wins),
and a segment without a resolvable sid leaves the index unchanged without
raising. -/
theorem per_participant_index_amended :
    (∀ (lang : Option String) (prev : List (String × String)) (s : Segment)
        (rest : List Segment), langSkip lang (effLang s) = true →
        handleByParticipant lang prev (s :: rest)
          = handleByParticipant lang prev rest) ∧
      (∀ (lang : Option String) (prev : List (String × String)) (s : Segment)
        (rest : List Segment), truthy (resolvePsid s) = false →
        handleByParticipant lang prev (s :: rest)
          = handleByParticipant lang prev rest) ∧
      (∀ (lang : Option String) (prev : List (String × String)) (s : Segment)
        (rest : List Segment) (p : String), langSkip lang (effLang s) = false →
        resolvePsid s = some p → p ≠ "" →
        handleByParticipant lang prev (s :: rest)
          = handleByParticipant lang (upsertA prev p s.text) rest) := by
  refine ⟨?_, ?_, ?_⟩
  · intro lang prev s rest hskip
    unfold handleByParticipant
    rw [List.foldl_cons, if_pos hskip]
  · intro lang prev s rest htr
    unfold handleByParticipant
    rw [List.foldl_cons]
    by_cases hskip : langSkip lang (effLang s)
    · rw [if_pos hskip]
    · rw [if_neg hskip]
      cases hr : resolvePsid s with
      | none => rfl
      | some q =>
        have hq : q = "" := by
          unfold truthy at htr
          rw [hr] at htr
          simpa using htr
        rw [hq]
        rfl
  · intro lang prev s rest p hskip hres hp
    unfold handleByParticipant
    rw [List.foldl_cons, if_neg (by rw [hskip]; exact Bool.false_ne_true), hres]
    congr 1
    show (if p = "" then prev else upsertA prev p s.text) = upsertA prev p s.text
    rw [if_neg hp]

/-- Witness for C7 (amended) at concrete inputs. -/
theorem per_participant_index_amended_witness :
    handleByParticipant none []
        [⟨"1", "x", "en", none, none, none, none, none⟩]
      = handleByParticipant none [] ([] : List Segment) ∧
      handleByParticipant none []
          [⟨"2", "y", "en", none, some "p2", none, none, none⟩]
        = handleByParticipant none (upsertA [] "p2" "y") ([] : List Segment) :=
  ⟨per_participant_index_amended.2.1 none []
      ⟨"1", "x", "en", none, none, none, none, none⟩ [] (by decide),
    per_participant_index_amended.2.2 none []
      ⟨"2", "y", "en", none, some "p2", none, none, none⟩ [] "p2"
      (by decide) (by decide) (by decide)⟩

/-! ## Claim C3: identity stability. -/

/-- C3 counterexample: ingesting the same id twice into the captions store
stores the second delivery wholesale, so the retained `firstReceivedTime` is
the second delivery's (200), not the first delivery's (100). -/
theorem identity_stability_counterexample :
    lookup2 (updateTranscriptions (updateTranscriptions []
        [⟨"1", "a", "en", none, none, none, none, some 100⟩])
        [⟨"1", "b", "en", none, none, none, none, some 200⟩]) "en" "1"
      = some ⟨"1", "b", "en", none, none, none, none, some 200⟩ ∧
      (⟨"1", "b", "en", none, none, none, none, some 200⟩ : Segment).firstReceivedTime
        ≠ (⟨"1", "a", "en", none, none, none, none, some 100⟩
          : Segment).firstReceivedTime := by
  decide

/-- C3 amended: the transcript-log store preserves the first delivery's
`firstReceivedTime` and takes the latest delivery's `text` (for a fresh id
ingested below the retention bound); the captions store instead overwrites
the whole entry with the second delivery, both its text and its
`firstReceivedTime`. -/
theorem identity_stability_amended :
    (∀ (filter : Option String) (now1 now2 : Nat) (prev : List LogItem)
        (s1 s2 : Segment) (t1 : Nat),
        (prev.map LogItem.id).Nodup →
        (∀ it ∈ prev, it.id ≠ s1.id) →
        prev.length < 100 →
        s2.id = s1.id →
        segPasses filter s1 = true →
        segPasses filter s2 = true →
        s1.firstReceivedTime = some t1 →
        ∃ it ∈ handleLog filter now2 (handleLog filter now1 prev [s1]) [s2],
          it.id = s1.id ∧ it.time = t1 ∧ it.text = s2.text) ∧
      (∀ (store : TransStore) (s1 s2 : Segment), s2.id = s1.id →
        lookup2 (updateTranscriptions (updateTranscriptions store [s1]) [s2])
          (effLang s2) s2.id = some s2) := by
  constructor
  · intro filter now1 now2 prev s1 s2 t1 hnd hfresh hlen hid hp1 hp2 hft
    have hlk1 : lookupA (toMapById prev) s1.id = none := by
      apply (lookupA_eq_none_iff _ _).mpr
      rw [map_fst_toMapById hnd]
      intro hm
      obtain ⟨it, hit, hitid⟩ := List.mem_map.mp hm
      exact hfresh it hit hitid
    have hstore1 : handleLog filter now1 prev [s1]
        = ((toMapById prev ++ [(s1.id, itemAt now1 s1)]).map Prod.snd).insertionSort
          timeLE := by
      rw [handleLog_singleton_no_trim filter now1 prev s1 hlen]
      rw [logStep_pass_fresh hp1 hlk1]
    have hvals : (toMapById prev ++ [(s1.id, itemAt now1 s1)]).map Prod.snd
        = prev ++ [itemAt now1 s1] := by
      rw [List.map_append, toMapById_eq hnd, List.map_map]
      have h1 : (Prod.snd ∘ fun it : LogItem => (it.id, it)) = id := rfl
      rw [h1, List.map_id]
      rfl
    have hperm1 : (handleLog filter now1 prev [s1]).Perm (prev ++ [itemAt now1 s1]) := by
      rw [hstore1, hvals]
      exact List.perm_insertionSort timeLE _
    have hlen1 : (handleLog filter now1 prev [s1]).length = prev.length + 1 := by
      rw [hperm1.length_eq, List.length_append]
      rfl
    have hids1 : ((handleLog filter now1 prev [s1]).map LogItem.id).Nodup := by
      refine ((hperm1.map LogItem.id).nodup_iff).mpr ?_
      rw [List.map_append]
      refine List.nodup_append.mpr ⟨hnd, by simp, ?_⟩
      intro a ha hb
      have hb2 : a = s1.id := by
        simpa [itemAt] using hb
      obtain ⟨it, hit, hitid⟩ := List.mem_map.mp ha
      exact hfresh it hit (hitid.trans hb2)
    have hmem1 : itemAt now1 s1 ∈ handleLog filter now1 prev [s1] :=
      hperm1.mem_iff.mpr (List.mem_append_right _ (by simp))
    have hin : s2.id ∈ (handleLog filter now1 prev [s1]).map LogItem.id := by
      rw [hid]
      exact List.mem_map_of_mem LogItem.id hmem1
    have hlkSome : (lookupA (toMapById (handleLog filter now1 prev [s1])) s2.id).isSome := by
      rw [lookupA_isSome_iff, map_fst_toMapById hids1]
      exact hin
    obtain ⟨e, he⟩ := Option.isSome_iff_exists.mp hlkSome
    have he2 : e = itemAt now1 s1 := by
      have he' := he
      rw [toMapById_eq hids1] at he'
      have hmem := lookupA_mem he'
      obtain ⟨r, hr, hre⟩ := List.mem_map.mp hmem
      have hrid : r.id = s2.id := congrArg Prod.fst hre
      have hrv : r = e := congrArg Prod.snd hre
      have hrs : r ∈ prev ++ [itemAt now1 s1] := hperm1.mem_iff.mp hr
      rcases List.mem_append.mp hrs with h | h
      · exact absurd (hid ▸ hrid) (hfresh r h)
      · rw [← hrv]
        simpa using h
    have htime : e.time = t1 := by
      rw [he2]
      unfold itemAt
      rw [hft]
      rfl
    have hbyId2 : logStep filter now2 (toMapById (handleLog filter now1 prev [s1])) s2
        = upsertA (toMapById (handleLog filter now1 prev [s1])) s2.id
          ⟨s2.id, s2.text, effLang s2, resolvePsid s2, e.time⟩ :=
      logStep_pass_existing hp2 he
    have hlkfinal : lookupA (logStep filter now2
        (toMapById (handleLog filter now1 prev [s1])) s2) s2.id
        = some ⟨s2.id, s2.text, effLang s2, resolvePsid s2, e.time⟩ := by
      rw [hbyId2]
      exact lookupA_upsertA_self _ _ _
    have hlen2 : ((logStep filter now2
        (toMapById (handleLog filter now1 prev [s1])) s2).map Prod.snd).length ≤ 100 := by
      rw [List.length_map, hbyId2, length_upsertA_of_mem]
      · calc (toMapById (handleLog filter now1 prev [s1])).length
            ≤ (handleLog filter now1 prev [s1]).length := length_toMapById_le _
          _ = prev.length + 1 := hlen1
          _ ≤ 100 := by omega
      · rw [map_fst_toMapById hids1]
        exact hin
    have hfinal : handleLog filter now2 (handleLog filter now1 prev [s1]) [s2]
        = ((logStep filter now2 (toMapById (handleLog filter now1 prev [s1]))
            s2).map Prod.snd).insertionSort timeLE := by
      unfold handleLog
      rw [List.foldl_cons, List.foldl_nil]
      apply lastN_of_length_le
      rw [List.length_insertionSort]
      exact hlen2
    refine ⟨⟨s2.id, s2.text, effLang s2, resolvePsid s2, e.time⟩, ?_, hid, htime, rfl⟩
    rw [hfinal, List.mem_insertionSort]
    exact List.mem_map_of_mem Prod.snd (lookupA_mem hlkfinal)
  · intro store s1 s2 hid
    show lookup2 (capStep (updateTranscriptions store [s1]) s2) (effLang s2) s2.id
      = some s2
    exact capStep_lookup2_self _ s2

/-- Witness for C3 (amended) at concrete inputs. -/
theorem identity_stability_amended_witness :
    (∃ it ∈ handleLog none 7 (handleLog none 3 []
        [⟨"1", "a", "en", none, none, none, none, some 100⟩])
        [⟨"1", "b", "en", none, none, none, none, some 150⟩],
      it.id = "1" ∧ it.time = 100 ∧ it.text = "b") ∧
      lookup2 (updateTranscriptions (updateTranscriptions []
          [⟨"1", "a", "en", none, none, none, none, some 100⟩])
          [⟨"1", "b", "en", none, none, none, none, some 150⟩]) "en" "1"
        = some ⟨"1", "b", "en", none, none, none, none, some 150⟩ :=
  ⟨identity_stability_amended.1 none 3 7 []
      ⟨"1", "a", "en", none, none, none, none, some 100⟩
      ⟨"1", "b", "en", none, none, none, none, some 150⟩ 100
      (by decide) (by decide) (by decide) (by decide) (by decide) (by decide)
      (by decide),
    identity_stability_amended.2 []
      ⟨"1", "a", "en", none, none, none, none, some 100⟩
      ⟨"1", "b", "en", none, none, none, none, some 150⟩ (by decide)⟩

/-! ## Claim C9: ingestion idempotence. -/

/-- C9 counterexample: ingesting `c9Batch` (101 distinct final segments whose
first two tie at time 1) twice does not equal ingesting it once — the first
ingest trims one tie-mate, re-ingesting appends it behind the survivor, and
the stable sort then trims the other tie-mate. -/
theorem ingest_idempotence_counterexample :
    handleLog none 0 (handleLog none 0 [] c9Batch) c9Batch
      ≠ handleLog none 0 [] c9Batch := by
  decide

/-- C9 amended: ingestion is idempotent for the captions store on any
well-formed store; for the transcript-log store it is idempotent provided the
two ingests share the wall-clock value, the accepted batch segments carry ids
fresh with respect to the store, and all arrival times are pairwise distinct
(so no tie can straddle the 100-entry retention boundary). -/
theorem ingest_idempotent_amended :
    (∀ (filter : Option String) (now : Nat) (prev : List LogItem)
        (batch : List Segment),
        (prev.map LogItem.id).Nodup →
        ((effBatch filter batch).map Segment.id).Nodup →
        (∀ s ∈ effBatch filter batch, s.id ∉ prev.map LogItem.id) →
        ((prev ++ (effBatch filter batch).map (itemAt now)).map LogItem.time).Nodup →
        handleLog filter now (handleLog filter now prev batch) batch
          = handleLog filter now prev batch) ∧
      (∀ (store : TransStore) (batch : List Segment), storeWF store →
        updateTranscriptions (updateTranscriptions store batch) batch
          = updateTranscriptions store batch) :=
  ⟨handleLog_idempotent, updateTranscriptions_idempotent⟩

/-- Witness for C9 (amended) at concrete inputs. -/
theorem ingest_idempotent_amended_witness :
    handleLog none 0 (handleLog none 0 []
        [⟨"x", "t", "en", none, none, none, none, some 5⟩])
        [⟨"x", "t", "en", none, none, none, none, some 5⟩]
      = handleLog none 0 [] [⟨"x", "t", "en", none, none, none, none, some 5⟩] ∧
      updateTranscriptions (updateTranscriptions []
          [⟨"x", "t", "en", none, none, none, none, some 5⟩])
          [⟨"x", "t", "en", none, none, none, none, some 5⟩]
        = updateTranscriptions [] [⟨"x", "t", "en", none, none, none, none, some 5⟩] :=
  ⟨ingest_idempotent_amended.1 none 0 []
      [⟨"x", "t", "en", none, none, none, none, some 5⟩]
      (by decide) (by decide) (by decide) (by decide),
    ingest_idempotent_amended.2 []
      [⟨"x", "t", "en", none, none, none, none, some 5⟩]
      ⟨List.nodup_nil, fun p hp => absurd hp (List.not_mem_nil p)⟩⟩

/-! ## Claim C5: single-mode pairing. -/

theorem buildByLang_bucket_aux :
    ∀ (items : List LogItem) (acc : List (String × List LogItem)) (l : String),
      (lookupA (items.foldl (fun acc item => upsertA acc item.language
        ((lookupA acc item.language).getD [] ++ [item])) acc) l).getD []
        = (lookupA acc l).getD [] ++ items.filter (fun it => it.language == l) := by
  intro items
  induction items with
  | nil =>
    intro acc l
    simp
  | cons it rest ih =>
    intro acc l
    rw [List.foldl_cons, ih, List.filter_cons]
    by_cases hl : it.language = l
    · have hb : (it.language == l) = true := by simp [hl]
      rw [if_pos hb, ← hl, lookupA_upsertA_self]
      show ((lookupA acc it.language).getD [] ++ [it]) ++ _ = _
      rw [List.append_assoc]
      rfl
    · have hb : (it.language == l) = false := by simp [hl]
      rw [if_neg (by rw [hb]; exact Bool.false_ne_true),
        lookupA_upsertA_ne _ _ _ _ (fun hh => hl hh.symm)]

theorem buildByLang_bucket (items : List LogItem) (l : String) :
    (lookupA (buildByLang items) l).getD []
      = items.filter (fun it => it.language == l) := by
  have h := buildByLang_bucket_aux items [] l
  rw [lookupA_nil] at h
  unfold buildByLang
  rw [h]
  rfl

/-- C5: in single mode the log projector buckets the retained items by
language into the configured input- and output-language buffers (exactly the
items whose `language` field matches, in item order) and pairs them
positionally: entry `i` is the pair of the i-th input-buffer item and the
i-th output-buffer item, with `max` length and no cross-language
correlation; in particular, for input-language items [A, B] and
output-language item [X], the paired log is exactly [(A, X), (B, absent)]. -/
theorem single_mode_pairing :
    (∀ (items : List LogItem) (inLang outLang : String) (i : Nat),
        (contentSingle items inLang outLang)[i]?
          = if i < max (items.filter (fun it => it.language == inLang)).length
                (items.filter (fun it => it.language == outLang)).length
            then some ((items.filter (fun it => it.language == inLang))[i]?,
                (items.filter (fun it => it.language == outLang))[i]?)
            else none) ∧
      contentSingle
          [⟨"a", "ta", "en", none, 1⟩, ⟨"b", "tb", "en", none, 2⟩,
            ⟨"x", "tx", "es", none, 1⟩] "en" "es"
        = [(some ⟨"a", "ta", "en", none, 1⟩, some ⟨"x", "tx", "es", none, 1⟩),
            (some ⟨"b", "tb", "en", none, 2⟩, none)] := by
  constructor
  · intro items inLang outLang i
    unfold contentSingle
    rw [buildByLang_bucket items inLang, buildByLang_bucket items outLang,
      List.getElem?_map]
    by_cases h : i < max (items.filter (fun it => it.language == inLang)).length
        (items.filter (fun it => it.language == outLang)).length
    · rw [List.getElem?_range h, if_pos h]
      rfl
    · rw [List.getElem?_eq_none (by rw [List.length_range]; omega), if_neg h]
      rfl
  · decide

/-! ## Claim C6: multi-mode captions. -/

theorem list_len_le_two {α : Type} :
    ∀ l : List α, l.length ≤ 2 →
      l = [] ∨ (∃ a, l = [a]) ∨ ∃ a b, l = [a, b] := by
  intro l h
  match l with
  | [] => exact Or.inl rfl
  | [a] => exact Or.inr (Or.inl ⟨a, rfl⟩)
  | [a, b] => exact Or.inr (Or.inr ⟨a, b, rfl⟩)
  | a :: b :: c :: t =>
    exfalso
    simp [List.length_cons] at h

/-- C6: in multi mode the caption projector renders the last 2 segments of
the `captionsLanguage` bucket ordered ascending by `firstReceivedTime` (a
suffix of the stably sorted bucket, which is a permutation of the bucket);
with two segments shown the second-to-last is at reduced emphasis and the
last at full emphasis, and a single segment is at full emphasis. -/
theorem captions_multi_last_two :
    ∀ (store : TransStore) (lang : String),
      (captionsMulti store lang).length
          = min 2 (((lookupA store lang).getD []).map Prod.snd).length ∧
        ((captionsMulti store lang).map Prod.fst).Sorted ftLE ∧
        ((captionsMulti store lang).map Prod.fst).IsSuffix
          ((((lookupA store lang).getD []).map Prod.snd).insertionSort ftLE) ∧
        ((((lookupA store lang).getD []).map Prod.snd).insertionSort ftLE).Perm
          (((lookupA store lang).getD []).map Prod.snd) ∧
        (captionsMulti store lang).map Prod.snd
          = (if (((lookupA store lang).getD []).map Prod.snd).length = 0 then []
            else if (((lookupA store lang).getD []).map Prod.snd).length = 1
            then [true] else [false, true]) := by
  intro store lang
  have hmap : (captionsMulti store lang).map Prod.fst
      = lastN 2 ((((lookupA store lang).getD []).map Prod.snd).insertionSort ftLE) := by
    unfold captionsMulti
    rw [List.map_map]
    exact List.enum_map_snd _
  have hlen2 : (lastN 2 ((((lookupA store lang).getD []).map
      Prod.snd).insertionSort ftLE)).length ≤ 2 := by
    rw [length_lastN]
    exact Nat.min_le_left _ _
  refine ⟨?_, ?_, ?_, List.perm_insertionSort ftLE _, ?_⟩
  · unfold captionsMulti
    rw [List.length_map, List.enum_length, length_lastN, List.length_insertionSort]
  · rw [hmap]
    exact List.Pairwise.sublist (lastN_suffix _ _).sublist
      (List.sorted_insertionSort ftLE _)
  · rw [hmap]
    exact lastN_suffix _ _
  · rcases list_len_le_two _ hlen2 with h | ⟨a, h⟩ | ⟨a, b, h⟩
    · have hl := congrArg List.length h
      unfold lastN at hl
      rw [List.length_drop, List.length_insertionSort, List.length_nil] at hl
      have hn : (((lookupA store lang).getD []).map Prod.snd).length = 0 := by
        omega
      unfold captionsMulti
      rw [h, hn]
      rfl
    · have hl := congrArg List.length h
      unfold lastN at hl
      rw [List.length_drop, List.length_insertionSort] at hl
      simp only [List.length_singleton] at hl
      have hn : (((lookupA store lang).getD []).map Prod.snd).length = 1 := by
        omega
      unfold captionsMulti
      rw [h, hn]
      rfl
    · have hl := congrArg List.length h
      unfold lastN at hl
      rw [List.length_drop, List.length_insertionSort] at hl
      simp only [List.length_cons, List.length_nil] at hl
      have hn : 2 ≤ (((lookupA store lang).getD []).map Prod.snd).length := by
        omega
      unfold captionsMulti
      rw [h, if_neg (by omega), if_neg (by omega)]
      rfl

/-! ## Claim C1: audio routing policy. -/

theorem mem_handleTrackMuting (isHost : Bool) {remotes : List RemoteParticipant}
    {p : RemoteParticipant} {pub : RemoteTrackPublication} {track : RemoteAudioTrack}
    (hp : p ∈ remotes) (hpub : pub ∈ p.audioTrackPublications)
    (ht : pub.audioTrack = some track) :
    (⟨p.identity, pub.trackName,
      (if isHost then true else if p.identity = "agent" then false else true),
      setRemoteTrackMuted track
        (if isHost then true else if p.identity = "agent" then false else true)⟩
      : TrackDecision) ∈ handleTrackMuting isHost remotes := by
  unfold handleTrackMuting
  rw [List.mem_flatMap]
  refine ⟨p, hp, ?_⟩
  rw [List.mem_filterMap]
  refine ⟨pub, hpub, ?_⟩
  rw [ht]

theorem handleTrackMuting_shape {isHost : Bool} {remotes : List RemoteParticipant}
    {d : TrackDecision} (hd : d ∈ handleTrackMuting isHost remotes) :
    d.updatedTrack.volume = (if d.muted then 0 else 1) ∧
      ∀ e ∈ d.updatedTrack.attachedElements, e.muted = d.muted := by
  unfold handleTrackMuting at hd
  rw [List.mem_flatMap] at hd
  obtain ⟨q, _, hq⟩ := hd
  rw [List.mem_filterMap] at hq
  obtain ⟨pub, _, heq⟩ := hq
  cases htr : pub.audioTrack with
  | none =>
    rw [htr] at heq
    exact absurd heq (by simp)
  | some t =>
    rw [htr] at heq
    have hd2 : d = ⟨q.identity, pub.trackName,
        (if isHost then true else if q.identity = "agent" then false else true),
        setRemoteTrackMuted t
          (if isHost then true else if q.identity = "agent" then false else true)⟩ :=
      (Option.some.inj heq).symm
    rw [hd2]
    constructor
    · rfl
    · intro e he
      unfold setRemoteTrackMuted at he
      obtain ⟨e0, _, he0⟩ := List.mem_map.mp he
      rw [← he0]

/-- C1: once a host is resolved (the first participant with publish
permission), for every remote audio source with an attached playable track
the policy decides: host hears nothing (muted), a listener hears exactly the
`"agent"` participant (audible) and mutes every other identity; a decision
sets the track volume to 0 or 1 accordingly and propagates the flag to every
attached sink; and re-running the policy over the remote participants in
reverse order yields exactly the same set of decisions. -/
theorem audio_routing_matrix :
    ∀ (participants : List Participant) (localP hostP : Participant)
      (remotes : List RemoteParticipant) (p : RemoteParticipant)
      (pub : RemoteTrackPublication) (track : RemoteAudioTrack),
      findHost participants = some hostP →
      p ∈ remotes → pub ∈ p.audioTrackPublications → pub.audioTrack = some track →
      ((hostP = localP →
        (⟨p.identity, pub.trackName, true, setRemoteTrackMuted track true⟩
          : TrackDecision) ∈ handleTrackMuting (decide (hostP = localP)) remotes) ∧
      (hostP ≠ localP → p.identity = "agent" →
        (⟨p.identity, pub.trackName, false, setRemoteTrackMuted track false⟩
          : TrackDecision) ∈ handleTrackMuting (decide (hostP = localP)) remotes) ∧
      (hostP ≠ localP → p.identity ≠ "agent" →
        (⟨p.identity, pub.trackName, true, setRemoteTrackMuted track true⟩
          : TrackDecision) ∈ handleTrackMuting (decide (hostP = localP)) remotes) ∧
      (∀ d ∈ handleTrackMuting (decide (hostP = localP)) remotes,
        d.updatedTrack.volume = (if d.muted then 0 else 1) ∧
          ∀ e ∈ d.updatedTrack.attachedElements, e.muted = d.muted) ∧
      (∀ d, d ∈ handleTrackMuting (decide (hostP = localP)) remotes.reverse
        ↔ d ∈ handleTrackMuting (decide (hostP = localP)) remotes)) := by
  intro participants localP hostP remotes p pub track hfind hp hpub ht
  refine ⟨?_, ?_, ?_, ?_, ?_⟩
  · intro hhost
    rw [decide_eq_true hhost]
    have h := mem_handleTrackMuting true hp hpub ht
    simpa using h
  · intro hhost hagent
    rw [decide_eq_false hhost]
    have h := mem_handleTrackMuting false hp hpub ht
    rw [if_neg Bool.false_ne_true, if_pos hagent] at h
    exact h
  · intro hhost hagent
    rw [decide_eq_false hhost]
    have h := mem_handleTrackMuting false hp hpub ht
    rw [if_neg Bool.false_ne_true, if_neg hagent] at h
    exact h
  · intro d hd
    exact handleTrackMuting_shape hd
  · intro d
    unfold handleTrackMuting
    rw [List.mem_flatMap, List.mem_flatMap]
    constructor
    · rintro ⟨q, hq, hmem⟩
      exact ⟨q, List.mem_reverse.mp hq, hmem⟩
    · rintro ⟨q, hq, hmem⟩
      exact ⟨q, List.mem_reverse.mpr hq, hmem⟩

/-- Witness for C1 at a concrete room: one publishing local host and one
remote `"agent"` participant with an attached track. -/
theorem audio_routing_matrix_witness :
    findHost [⟨"h", true⟩] = some ⟨"h", true⟩ ∧
      (⟨"agent", "tts", true, setRemoteTrackMuted ⟨5, [⟨false⟩]⟩ true⟩
        : TrackDecision) ∈ handleTrackMuting
          (decide ((⟨"h", true⟩ : Participant) = ⟨"h", true⟩))
          [⟨"agent", [⟨"tts", some ⟨5, [⟨false⟩]⟩⟩]⟩] :=
  ⟨by decide,
    (audio_routing_matrix [⟨"h", true⟩] ⟨"h", true⟩ ⟨"h", true⟩
      [⟨"agent", [⟨"tts", some ⟨5, [⟨false⟩]⟩⟩]⟩]
      ⟨"agent", [⟨"tts", some ⟨5, [⟨false⟩]⟩⟩]⟩
      ⟨"tts", some ⟨5, [⟨false⟩]⟩⟩ ⟨5, [⟨false⟩]⟩
      (by decide) (by decide) (by decide) (by decide)).1 rfl⟩

end TalkToMe
